import Mathlib

/-!
Shallow embedding of the open-addressing hash table of `src/src/main.rs`
(struct `HashTable`, struct `HashTableEntry`, and the methods `new`, `get`,
`find_slot`, `resize`, `put`, `delete`).

Modelling conventions:
* Rust `usize` arithmetic is modelled with `Nat`; the only operations used
  are `+ 1`, `* 2`, `/ 2` and `%`, which do not overflow in the source for
  any realistic table, so plain `Nat` is faithful.
* The hasher (`DefaultHasher`) is an opaque deterministic gateway in the
  source; it is modelled as an explicit parameter `hash : K → Nat`
  (the `u64` digest is only ever used reduced `% size`).
* Partiality is modelled with `Option`: a `none` result stands for an
  abnormal outcome of the source (a panic, e.g. `%` by zero or an
  out-of-bounds index, or non-termination of the `find_slot` loop).
* `find_slot`'s `while` loop advances `index = (index + 1) % size`; after
  `size` steps it revisits its starting index with an unchanged table, so
  it either stops within `size` steps or loops forever.  The loop is hence
  modelled by structural recursion on a fuel initialised to `size`, with
  fuel exhaustion (`none`) meaning the source loop diverges.
* `put` calls `resize`, which re-inserts entries by calling `put` again;
  that recursion is modelled by a budget counting the resizes an
  invocation may still trigger (`put_fueled`).  The public `put` uses
  budget 2, which is shown sufficient for every state the public API can
  reach (theorem `reach_inv` below: reachable states need at most one
  nested resize, i.e. depth 2, attained from capacity 1).
-/

set_option maxHeartbeats 1000000
set_option linter.unusedSectionVars false

/-- Rust struct `HashTableEntry<K, V>`: a slot of the table, holding a key,
a value, and the two state flags. -/
structure HashTableEntry (K V : Type) where
  key : K
  value : V
  is_alive : Bool
  has_been_used : Bool
deriving DecidableEq, Repr

/-- Rust struct `HashTable<K, V>`: the capacity (`size`), the slot array
(`table`) and the occupancy counter (`current_size`). -/
structure HashTable (K V : Type) where
  size : Nat
  table : List (HashTableEntry K V)
  current_size : Nat
deriving DecidableEq, Repr

namespace HashTable

variable {K V : Type} [DecidableEq K] [Inhabited K] [Inhabited V]

/-- The entry a fresh slot is initialised with in `new` and `resize`:
`key: Default::default(), value: Default::default(), is_alive: false,
has_been_used: false`. -/
def emptyEntry : HashTableEntry K V :=
  { key := default, value := default, is_alive := false, has_been_used := false }

/-- Rust `HashTable::new(size)`: `size` slots, all never used, occupancy 0. -/
def new (size : Nat) : HashTable K V :=
  { size := size
    table := List.replicate size emptyEntry
    current_size := 0 }

/-- Continuation condition of the `while` loop in `find_slot`:
`self.table[index].has_been_used && self.table[index].key != *key &&
self.table[index].is_alive == true`. -/
def probeContinues (e : HashTableEntry K V) (k : K) : Bool :=
  e.has_been_used && !(e.key = k : Bool) && e.is_alive

/-- The `while` loop of `find_slot`, by fuel.  Reading a slot is
`table.get?`; an out-of-range index (impossible when the table is well
formed) models the Rust index panic as `none`.  Fuel exhaustion models
divergence of the loop. -/
def findSlotLoop (t : HashTable K V) (k : K) : Nat → Nat → Option Nat
  | 0, _ => none
  | fuel + 1, i =>
    match t.table.get? i with
    | none => none
    | some e =>
      if probeContinues e k then findSlotLoop t k fuel ((i + 1) % t.size)
      else some i

/-- Rust `find_slot`: start at `hash(key) % size` and walk while the slot
is used, live, and holds a different key.  `size = 0` makes the source
panic on `%` (modelled `none`); otherwise fuel `size` exactly captures
the loop (within `size` steps it either stops or revisits its start). -/
def find_slot (hash : K → Nat) (t : HashTable K V) (k : K) : Option Nat :=
  if t.size = 0 then none
  else findSlotLoop t k t.size (hash k % t.size)

/-- Rust `get`: probe, then report the value if the slot found is live and
holds the key. -/
def get (hash : K → Nat) (t : HashTable K V) (k : K) : Option V :=
  match find_slot hash t k with
  | none => none
  | some i =>
    match t.table.get? i with
    | none => none
    | some e => if e.key = k ∧ e.is_alive = true then some e.value else none

/-- The write `put` performs at the probed index, plus the unconditional
`self.current_size += 1`. -/
def writeAt (t : HashTable K V) (i : Nat) (k : K) (v : V) : HashTable K V :=
  { t with
    table := t.table.set i { key := k, value := v, is_alive := true, has_been_used := true }
    current_size := t.current_size + 1 }

/-- Number of live entries of a slot list (`resize`'s `hash_count` counts
exactly the entries with `is_alive` set). -/
def countAlive (l : List (HashTableEntry K V)) : Nat :=
  l.countP (fun e => e.is_alive)

/-- Number of ever-used entries of a slot list. -/
def countUsed (l : List (HashTableEntry K V)) : Nat :=
  l.countP (fun e => e.has_been_used)

/-- The re-insertion loop of `resize`: walk the old slot list in order,
re-inserting every live entry with the supplied insertion function (the
source removes each live entry and leaves `index` in place, which visits
the remaining entries in the same order).  `none` from an insertion
propagates (the source `unwrap`s a computation that, in the model,
signals abnormality by `none`). -/
def reinsert (putFn : HashTable K V → K → V → Option (HashTable K V)) :
    HashTable K V → List (HashTableEntry K V) → Option (HashTable K V)
  | acc, [] => some acc
  | acc, e :: rest =>
    if e.is_alive then
      match putFn acc e.key e.value with
      | none => none
      | some acc2 => reinsert putFn acc2 rest
    else reinsert putFn acc rest

/-- Rust `resize`, parameterised by the insertion function used for the
re-insertion loop: double the capacity, swap in a fresh all-never-used
slot array with occupancy 0, re-insert the live entries of the old array,
and finally set `current_size` to the number of re-inserted entries
(`hash_count`). -/
def resize (putFn : HashTable K V → K → V → Option (HashTable K V))
    (t : HashTable K V) : Option (HashTable K V) :=
  let newSize := t.size * 2
  let fresh : HashTable K V :=
    { size := newSize, table := List.replicate newSize emptyEntry, current_size := 0 }
  match reinsert putFn fresh t.table with
  | none => none
  | some t2 => some { t2 with current_size := countAlive t.table }

/-- Rust `put`, stratified by the number of resizes the invocation may
still trigger: probe, overwrite the slot found, increment occupancy, and
resize when `current_size >= size / 2`.  A resize at exhausted budget is
`none`; budget 2 (see `put`) covers every reachable state. -/
def put_fueled (hash : K → Nat) :
    Nat → HashTable K V → K → V → Option (HashTable K V)
  | 0, t, k, v =>
    match find_slot hash t k with
    | none => none
    | some i =>
      let t1 := writeAt t i k v
      if t1.current_size ≥ t1.size / 2 then none else some t1
  | fuel + 1, t, k, v =>
    match find_slot hash t k with
    | none => none
    | some i =>
      let t1 := writeAt t i k v
      if t1.current_size ≥ t1.size / 2 then resize (put_fueled hash fuel) t1
      else some t1

/-- Rust `put`: resize budget 2 suffices on every state reachable through
the public API (a nested resize happens only when starting from capacity
1, and then exactly once). -/
def put (hash : K → Nat) (t : HashTable K V) (k : K) (v : V) :
    Option (HashTable K V) :=
  put_fueled hash 2 t k v

/-- Rust `delete`: probe, and clear `is_alive` when the slot found holds
the key (the source checks only key equality; on a non-live slot the
write stores the value already present). -/
def delete (hash : K → Nat) (t : HashTable K V) (k : K) :
    Option (HashTable K V) :=
  match find_slot hash t k with
  | none => none
  | some i =>
    match t.table.get? i with
    | none => none
    | some e =>
      if e.key = k then
        some { t with table := t.table.set i { e with is_alive := false } }
      else some t

end HashTable

/-- A concrete substitute for the hasher gateway (the spec's §4.1 makes
the hasher an indirection replaceable in tests; its only contract is
determinism, which any pure function satisfies).  Counterexamples use it
to realise hash collisions concretely. -/
def hash0 : Nat → Nat := fun _ => 0

namespace HashTable

/-- States reachable through the public API from `construct(C)` with
`C ≥ 1`, by any sequence of `put` and `delete` calls (a `get` does not
change the state). -/
inductive Reach (hash : K → Nat) [DecidableEq K] [Inhabited K] [Inhabited V] :
    Nat → HashTable K V → Prop
  | init (C : Nat) (hC : 1 ≤ C) : Reach hash C (new C)
  | put_step {C t k v t'} : Reach hash C t → put hash t k v = some t' →
      Reach hash C t'
  | delete_step {C t k t'} : Reach hash C t → delete hash t k = some t' →
      Reach hash C t'

/-- States reachable from `construct(C)` with `C ≥ 1` by `put` calls
alone (no deletes). -/
inductive PutReach (hash : K → Nat) [DecidableEq K] [Inhabited K] [Inhabited V] :
    Nat → HashTable K V → Prop
  | init (C : Nat) (hC : 1 ≤ C) : PutReach hash C (new C)
  | put_step {C t k v t'} : PutReach hash C t → put hash t k v = some t' →
      PutReach hash C t'

end HashTable

namespace HashTable

variable {K V : Type} [DecidableEq K] [Inhabited K] [Inhabited V]

/-- The slot at an index, with the empty slot as default for out-of-range
reads (used only under an in-range hypothesis). -/
def slotAt (t : HashTable K V) (i : Nat) : HashTableEntry K V :=
  t.table.getD i emptyEntry

/-- Number of forward steps (modulo `s`) the probe walk takes to go from
index `h` to index `i`. -/
def probeDist (s h i : Nat) : Nat := (i + s - h) % s

/-- The inductive invariant maintained by the public operations on every
state reachable from a capacity of at least 2 (and re-established, after
one `put`, from capacity 1): the slot array has `size` slots, the
capacity is positive, live slots are ever-used, the occupancy counter
bounds the number of ever-used slots, and the occupancy counter is
strictly below half the capacity. -/
def Inv (t : HashTable K V) : Prop :=
  t.table.length = t.size ∧
  0 < t.size ∧
  (∀ e ∈ t.table, e.is_alive = true → e.has_been_used = true) ∧
  countUsed t.table ≤ t.current_size ∧
  t.current_size < t.size / 2

/-- The entry `put` writes: both flags set. -/
def liveEntry (k : K) (v : V) : HashTableEntry K V :=
  { key := k, value := v, is_alive := true, has_been_used := true }

/-- No tombstones: a slot is ever-used exactly when it is live (this is
the shape of every table reachable without `delete`). -/
def NoTomb (t : HashTable K V) : Prop :=
  ∀ e ∈ t.table, e.has_been_used = e.is_alive

/-- No two live slots hold the same key. -/
def UniqueKeys (t : HashTable K V) : Prop :=
  ∀ i j, i < t.size → j < t.size → (slotAt t i).is_alive = true →
    (slotAt t j).is_alive = true → (slotAt t i).key = (slotAt t j).key → i = j

/-- Probe-chain reachability (the spec's invariant 2): every slot of the
walk from a live slot's home index to the slot itself is live. -/
def Chains (hash : K → Nat) (t : HashTable K V) : Prop :=
  ∀ i, i < t.size → (slotAt t i).is_alive = true →
    ∀ d, d < probeDist t.size (hash (slotAt t i).key % t.size) i →
      (slotAt t ((hash (slotAt t i).key % t.size + d) % t.size)).is_alive = true

/-- Structural invariant of delete-free tables. -/
def PCore (hash : K → Nat) (t : HashTable K V) : Prop :=
  t.table.length = t.size ∧ 0 < t.size ∧ NoTomb t ∧ UniqueKeys t ∧ Chains hash t

/-- Slot `i` holds the live pair `(k, v)`. -/
def MapsTo (t : HashTable K V) (k : K) (v : V) : Prop :=
  ∃ i, i < t.size ∧ slotAt t i = liveEntry k v

/-- Some live slot holds key `k`. -/
def AliveKey (t : HashTable K V) (k : K) : Prop :=
  ∃ i, i < t.size ∧ (slotAt t i).is_alive = true ∧ (slotAt t i).key = k

/-- The full invariant of a delete-free reachable state: the structural
core, the live count bounded by the occupancy counter, and the occupancy
counter strictly below half the capacity. -/
def PState (hash : K → Nat) (t : HashTable K V) : Prop :=
  PCore hash t ∧ countAlive t.table ≤ t.current_size ∧
    t.current_size < t.size / 2

/-- A sequence of `put` calls, in order (the shape of the histories
quantified over by the spec's P1 property). -/
def runPuts (hash : K → Nat) : HashTable K V → List (K × V) → Option (HashTable K V)
  | t, [] => some t
  | t, p :: ps =>
    match put hash t p.1 p.2 with
    | none => none
    | some t' => runPuts hash t' ps

end HashTable

section Sanity

example : (HashTable.new 2 : HashTable Nat Nat).size = 2 := rfl

example :
    (HashTable.put hash0 (HashTable.new 10 : HashTable Nat Nat) 3 7).map
      (fun t => t.current_size) = some 1 := by decide

example :
    ((HashTable.put hash0 (HashTable.new 10 : HashTable Nat Nat) 3 7).bind
      (fun t => HashTable.get hash0 t 3)) = some 7 := by decide

/- the scenario S1 of the spec: new(2); put >= doubles capacity to 4 -/
example :
    (HashTable.put hash0 (HashTable.new 2 : HashTable Nat Nat) 1 1).map
      (fun t => (t.size, t.current_size)) = some (4, 1) := by decide

end Sanity

namespace HashTable

variable {K V : Type} [DecidableEq K] [Inhabited K] [Inhabited V]

/-- List update with the value already stored is the identity. -/
theorem set_get?_self (l : List (HashTableEntry K V)) (i : Nat)
    (e : HashTableEntry K V) (h : l.get? i = some e) : l.set i e = l := by
  induction l generalizing i with
  | nil => simp at h
  | cons a l ih =>
    cases i with
    | zero =>
      simp at h
      subst h
      rfl
    | succ j =>
      simp only [List.set]
      rw [ih j (by simpa using h)]

/-- A successful probe returns an in-range index: the loop only answers an
index it has just read. -/
theorem findSlotLoop_some_get? {t : HashTable K V} {k : K} {fuel j i : Nat}
    (h : findSlotLoop t k fuel j = some i) :
    ∃ e, t.table.get? i = some e := by
  induction fuel generalizing j with
  | zero => simp [findSlotLoop] at h
  | succ fuel ih =>
    rw [findSlotLoop] at h
    cases hg : t.table.get? j with
    | none => rw [hg] at h; exact absurd h (by simp)
    | some e =>
      simp only [hg] at h
      split at h
      · exact ih h
      · obtain rfl : j = i := by simpa using h
        exact ⟨e, hg⟩


theorem get?_eq_some_getD {α : Type} :
    ∀ (l : List α) (i : Nat) (d : α), i < l.length → l.get? i = some (l.getD i d)
  | [], i, _, h => absurd h (by simp)
  | a :: l, 0, d, _ => rfl
  | a :: l, i + 1, d, h => get?_eq_some_getD l i d (by simpa using h)

theorem get?_slotAt {t : HashTable K V} {i : Nat} (h : i < t.table.length) :
    t.table.get? i = some (slotAt t i) :=
  get?_eq_some_getD t.table i emptyEntry h


theorem probeDist_lt {s : Nat} (hs : 0 < s) (h i : Nat) : probeDist s h i < s :=
  Nat.mod_lt _ hs

theorem add_probeDist {s h i : Nat} (hh : h < s) (hi : i < s) :
    (h + probeDist s h i) % s = i := by
  unfold probeDist
  rcases le_or_lt h i with hle | hlt
  · have h1 : i + s - h = (i - h) + s := by omega
    rw [h1, Nat.add_mod_right, Nat.mod_eq_of_lt (by omega : i - h < s)]
    have h2 : h + (i - h) = i := by omega
    rw [h2, Nat.mod_eq_of_lt hi]
  · have h1 : i + s - h < s := by omega
    rw [Nat.mod_eq_of_lt h1]
    have h2 : h + (i + s - h) = i + s := by omega
    rw [h2, Nat.add_mod_right, Nat.mod_eq_of_lt hi]

theorem probeDist_add {s h d : Nat} (hh : h < s) (hd : d < s) :
    probeDist s h ((h + d) % s) = d := by
  unfold probeDist
  rcases lt_or_ge (h + d) s with hlt | hge
  · rw [Nat.mod_eq_of_lt hlt]
    have h1 : h + d + s - h = d + s := by omega
    rw [h1, Nat.add_mod_right, Nat.mod_eq_of_lt hd]
  · have h1 : h + d = (h + d - s) + s := by omega
    rw [h1, Nat.add_mod_right, Nat.mod_eq_of_lt (by omega : h + d - s < s)]
    have h2 : h + d - s + s - h = d := by omega
    rw [h2, Nat.mod_eq_of_lt hd]

theorem probe_index_inj {s h d d' : Nat} (hh : h < s) (hd : d < s) (hd' : d' < s)
    (he : (h + d) % s = (h + d') % s) : d = d' := by
  have := probeDist_add hh hd
  rw [he, probeDist_add hh hd'] at this
  omega

/-- Completeness of the probe loop: if `d` is minimal with a stopping slot
at walk distance `d` from `start`, the loop returns that slot's index
whenever its fuel exceeds `d`. -/
theorem findSlotLoop_spec {t : HashTable K V} {k : K}
    (hlen : t.table.length = t.size) :
    ∀ (d fuel start : Nat), start < t.size → d < fuel →
      probeContinues (slotAt t ((start + d) % t.size)) k = false →
      (∀ d', d' < d → probeContinues (slotAt t ((start + d') % t.size)) k = true) →
      findSlotLoop t k fuel start = some ((start + d) % t.size)
  | 0, fuel + 1, start, hstart, _, hstop, _ => by
    have hmod : (start + 0) % t.size = start := by
      rw [Nat.add_zero, Nat.mod_eq_of_lt hstart]
    rw [hmod] at hstop
    rw [findSlotLoop]
    simp only [get?_slotAt (hlen ▸ hstart), hstop]
    simp [Nat.mod_eq_of_lt hstart]
  | d + 1, fuel + 1, start, hstart, hd, hstop, hmin => by
    have hs : 0 < t.size := Nat.lt_of_le_of_lt (Nat.zero_le _) hstart
    have hcont : probeContinues (slotAt t start) k = true := by
      have h0 := hmin 0 (Nat.succ_pos d)
      rwa [Nat.add_zero, Nat.mod_eq_of_lt hstart] at h0
    rw [findSlotLoop]
    simp only [get?_slotAt (hlen ▸ hstart), hcont, if_true]
    have hstart2 : (start + 1) % t.size < t.size := Nat.mod_lt _ hs
    have hidx : ∀ e : Nat, ((start + 1) % t.size + e) % t.size = (start + (e + 1)) % t.size := by
      intro e
      rw [Nat.mod_add_mod]
      congr 1
      omega
    have hstop' : probeContinues (slotAt t (((start + 1) % t.size + d) % t.size)) k = false := by
      rw [hidx]; exact hstop
    have hmin' : ∀ d', d' < d →
        probeContinues (slotAt t (((start + 1) % t.size + d') % t.size)) k = true := by
      intro d' hd'
      rw [hidx]
      exact hmin (d' + 1) (by omega)
    have hrec := findSlotLoop_spec hlen d fuel ((start + 1) % t.size) hstart2 (by omega) hstop' hmin'
    rw [hrec, hidx]

/-- Soundness of the probe loop: a successful probe returns the slot at
some walk distance `d`, that slot stops the walk, and every earlier slot
of the walk continues it. -/
theorem findSlotLoop_sound {t : HashTable K V} {k : K}
    (hlen : t.table.length = t.size) (hs : 0 < t.size) :
    ∀ (fuel start i : Nat), start < t.size →
      findSlotLoop t k fuel start = some i →
      ∃ d, d < fuel ∧ i = (start + d) % t.size ∧
        probeContinues (slotAt t i) k = false ∧
        ∀ d', d' < d → probeContinues (slotAt t ((start + d') % t.size)) k = true
  | 0, start, i, _, h => absurd h (by simp [findSlotLoop])
  | fuel + 1, start, i, hstart, h => by
    rw [findSlotLoop] at h
    simp only [get?_slotAt (hlen ▸ hstart)] at h
    split at h
    case isTrue hc =>
      obtain ⟨d, hdf, hi, hstop, hmin⟩ :=
        findSlotLoop_sound hlen hs fuel ((start + 1) % t.size) i (Nat.mod_lt _ hs) h
      have hidx : ∀ e : Nat, ((start + 1) % t.size + e) % t.size = (start + (e + 1)) % t.size := by
        intro e
        rw [Nat.mod_add_mod]
        congr 1
        omega
      refine ⟨d + 1, by omega, by rw [hi, hidx], hstop, ?_⟩
      intro d' hd'
      cases d' with
      | zero => rwa [Nat.add_zero, Nat.mod_eq_of_lt hstart]
      | succ e =>
        have hme := hmin e (by omega)
        rwa [hidx] at hme
    case isFalse hc =>
      have hc' : probeContinues (slotAt t start) k = false := by
        cases hcc : probeContinues (slotAt t start) k
        · rfl
        · exact absurd hcc hc
      obtain rfl : start = i := by simpa using h
      exact ⟨0, by omega, by rw [Nat.add_zero, Nat.mod_eq_of_lt hstart], hc', by omega⟩

/-- Characterisation of a successful `find_slot`: the returned index is at
the minimal walk distance from the home index at which the walk stops. -/
theorem find_slot_sound {hash : K → Nat} {t : HashTable K V} {k : K} {i : Nat}
    (hlen : t.table.length = t.size)
    (h : find_slot hash t k = some i) :
    ∃ d, d < t.size ∧ i = (hash k % t.size + d) % t.size ∧
      probeContinues (slotAt t i) k = false ∧
      ∀ d', d' < d → probeContinues (slotAt t ((hash k % t.size + d') % t.size)) k = true := by
  rw [find_slot] at h
  split at h
  · exact absurd h (by simp)
  · have hs : 0 < t.size := Nat.pos_of_ne_zero (by assumption)
    exact findSlotLoop_sound hlen hs t.size (hash k % t.size) i (Nat.mod_lt _ hs) h

/-- Totality of `find_slot` whenever some slot of the table stops the
walk: the loop halts at the first such slot. -/
theorem find_slot_total {t : HashTable K V} {k : K} (hash : K → Nat)
    (hlen : t.table.length = t.size) (hs : 0 < t.size)
    (hex : ∃ j, j < t.size ∧ probeContinues (slotAt t j) k = false) :
    ∃ d, d < t.size ∧
      find_slot hash t k = some ((hash k % t.size + d) % t.size) ∧
      probeContinues (slotAt t ((hash k % t.size + d) % t.size)) k = false ∧
      ∀ d', d' < d → probeContinues (slotAt t ((hash k % t.size + d') % t.size)) k = true := by
  obtain ⟨j, hj, hjstop⟩ := hex
  have hstart : hash k % t.size < t.size := Nat.mod_lt _ hs
  have hPex : ∃ d, probeContinues (slotAt t ((hash k % t.size + d) % t.size)) k = false :=
    ⟨probeDist t.size (hash k % t.size) j, by rw [add_probeDist hstart hj]; exact hjstop⟩
  have hstop := Nat.find_spec hPex
  have hdlt : Nat.find hPex < t.size := by
    have hle : Nat.find hPex ≤ probeDist t.size (hash k % t.size) j :=
      Nat.find_min' hPex (by rw [add_probeDist hstart hj]; exact hjstop)
    have hplt := probeDist_lt hs (hash k % t.size) j
    omega
  have hmin : ∀ d', d' < Nat.find hPex →
      probeContinues (slotAt t ((hash k % t.size + d') % t.size)) k = true := by
    intro d' hd'
    have hne := Nat.find_min hPex hd'
    cases hcc : probeContinues (slotAt t ((hash k % t.size + d') % t.size)) k
    · exact absurd hcc hne
    · rfl
  refine ⟨Nat.find hPex, hdlt, ?_, hstop, hmin⟩
  rw [find_slot, if_neg (Nat.pos_iff_ne_zero.mp hs)]
  exact findSlotLoop_spec hlen (Nat.find hPex) t.size (hash k % t.size) hstart hdlt hstop hmin

section ListLemmas

variable {α : Type}

theorem getD_set_self (l : List α) (i : Nat) (e d : α) (h : i < l.length) :
    (l.set i e).getD i d = e := by
  induction l generalizing i with
  | nil => simp at h
  | cons a l ih =>
    cases i with
    | zero => rfl
    | succ j => exact ih j (by simpa using h)

theorem getD_set_other (l : List α) (i j : Nat) (e d : α) (hne : j ≠ i) :
    (l.set i e).getD j d = l.getD j d := by
  induction l generalizing i j with
  | nil => simp
  | cons a l ih =>
    cases i with
    | zero =>
      cases j with
      | zero => exact absurd rfl hne
      | succ j' => rfl
    | succ i' =>
      cases j with
      | zero => rfl
      | succ j' => exact ih i' j' (by omega)

theorem countP_set_le (l : List α) (i : Nat) (e : α) (p : α → Bool) :
    (l.set i e).countP p ≤ l.countP p + 1 := by
  induction l generalizing i with
  | nil => simp
  | cons a l ih =>
    cases i with
    | zero =>
      simp only [List.set, List.countP_cons]
      have := l.countP p
      by_cases hpe : p e <;> by_cases hpa : p a <;> simp [hpe, hpa] <;> omega
    | succ j =>
      simp only [List.set, List.countP_cons]
      have := ih j
      omega

theorem countP_set_same (l : List α) (i : Nat) (e e' : α) (p : α → Bool)
    (hget : l.get? i = some e) (hp : p e' = p e) :
    (l.set i e').countP p = l.countP p := by
  induction l generalizing i with
  | nil => simp at hget
  | cons a l ih =>
    cases i with
    | zero =>
      obtain rfl : a = e := by simpa using hget
      simp [List.set, List.countP_cons, hp]
    | succ j =>
      simp only [List.set, List.countP_cons]
      rw [ih j (by simpa using hget)]

theorem countP_mono_pred (l : List α) (p q : α → Bool)
    (h : ∀ a ∈ l, p a = true → q a = true) : l.countP p ≤ l.countP q := by
  induction l with
  | nil => simp
  | cons a l ih =>
    simp only [List.countP_cons]
    have h1 := ih (fun a ha => h a (List.mem_cons_of_mem _ ha))
    by_cases hpa : p a = true
    · rw [if_pos hpa, if_pos (h a (List.mem_cons_self _ _) hpa)]
      omega
    · have : (if p a = true then 1 else 0) = 0 := by simp [hpa]
      rw [this]
      split <;> omega

theorem exists_false_getD_of_countP_lt (l : List α) (p : α → Bool) (d : α)
    (h : l.countP p < l.length) : ∃ j, j < l.length ∧ p (l.getD j d) = false := by
  induction l with
  | nil => simp at h
  | cons a l ih =>
    by_cases hpa : p a = true
    · have h' : l.countP p < l.length := by
        simp only [List.countP_cons, if_pos hpa, List.length_cons] at h
        omega
      obtain ⟨j, hj, hjp⟩ := ih h'
      exact ⟨j + 1, by simpa using hj, hjp⟩
    · refine ⟨0, by simp, ?_⟩
      simpa using (Bool.not_eq_true _).mp hpa

theorem countP_replicate_false (n : Nat) (a : α) (p : α → Bool) (h : p a = false) :
    (List.replicate n a).countP p = 0 := by
  induction n with
  | zero => simp
  | succ m ih => simp [List.replicate, List.countP_cons, h, ih]

end ListLemmas

/-- Dead slots stop the probe walk. -/
theorem probeContinues_of_not_alive {e : HashTableEntry K V} {k : K}
    (h : e.is_alive = false) : probeContinues e k = false := by
  simp [probeContinues, h]

/-- Never-used slots stop the probe walk. -/
theorem probeContinues_of_not_used {e : HashTableEntry K V} {k : K}
    (h : e.has_been_used = false) : probeContinues e k = false := by
  simp [probeContinues, h]

/-- A slot holding the probed key stops the probe walk. -/
theorem probeContinues_of_key_eq {e : HashTableEntry K V} {k : K}
    (h : e.key = k) : probeContinues e k = false := by
  simp [probeContinues, h]


theorem countAlive_le_countUsed {t : HashTable K V}
    (h : ∀ e ∈ t.table, e.is_alive = true → e.has_been_used = true) :
    countAlive t.table ≤ countUsed t.table :=
  countP_mono_pred t.table _ _ h

/-- Under the invariant some slot is dead, so every probe walk stops. -/
theorem exists_dead_slot {t : HashTable K V} (hInv : Inv t) :
    ∃ j, j < t.size ∧ (slotAt t j).is_alive = false := by
  obtain ⟨hlen, hs, haiu, hcu, hcs⟩ := hInv
  have h1 : countAlive t.table < t.table.length := by
    have h2 := countAlive_le_countUsed haiu
    have h3 : t.size / 2 ≤ t.size := Nat.div_le_self _ _
    omega
  obtain ⟨j, hj, hjp⟩ := exists_false_getD_of_countP_lt t.table _ emptyEntry h1
  exact ⟨j, hlen ▸ hj, hjp⟩

/-- Under the invariant `find_slot` succeeds and returns the first
stopping slot of the walk. -/
theorem find_slot_inv (hash : K → Nat) {t : HashTable K V} (hInv : Inv t) (k : K) :
    ∃ d, d < t.size ∧
      find_slot hash t k = some ((hash k % t.size + d) % t.size) ∧
      probeContinues (slotAt t ((hash k % t.size + d) % t.size)) k = false ∧
      ∀ d', d' < d → probeContinues (slotAt t ((hash k % t.size + d') % t.size)) k = true := by
  obtain ⟨j, hj, hjdead⟩ := exists_dead_slot hInv
  exact find_slot_total hash hInv.1 hInv.2.1
    ⟨j, hj, probeContinues_of_not_alive hjdead⟩

section Unfe

variable (hash : K → Nat)

theorem put_fueled_of_no_trigger {t : HashTable K V} {k : K} {i : Nat} (v : V)
    (hfs : find_slot hash t k = some i)
    (hnt : t.current_size + 1 < t.size / 2) :
    ∀ fuel, put_fueled hash fuel t k v = some (writeAt t i k v) := by
  intro fuel
  cases fuel <;>
    simp [put_fueled, hfs, writeAt, Nat.not_le_of_lt hnt]

theorem put_fueled_of_trigger {t : HashTable K V} {k : K} {i : Nat} (v : V)
    (hfs : find_slot hash t k = some i)
    (ht : t.size / 2 ≤ t.current_size + 1) (fuel : Nat) :
    put_fueled hash (fuel + 1) t k v = resize (put_fueled hash fuel) (writeAt t i k v) := by
  simp [put_fueled, hfs, writeAt, ht]

theorem put_fueled_zero_of_trigger {t : HashTable K V} {k : K} {i : Nat} (v : V)
    (hfs : find_slot hash t k = some i)
    (ht : t.size / 2 ≤ t.current_size + 1) :
    put_fueled hash 0 t k v = none := by
  simp [put_fueled, hfs, writeAt, ht]

theorem reinsert_nil (putFn : HashTable K V → K → V → Option (HashTable K V))
    (acc : HashTable K V) : reinsert putFn acc [] = some acc := rfl

theorem reinsert_cons_alive (putFn : HashTable K V → K → V → Option (HashTable K V))
    (acc : HashTable K V) {e : HashTableEntry K V} (rest : List (HashTableEntry K V))
    (h : e.is_alive = true) :
    reinsert putFn acc (e :: rest) =
      match putFn acc e.key e.value with
      | none => none
      | some acc2 => reinsert putFn acc2 rest := by
  simp [reinsert, h]

theorem reinsert_cons_dead (putFn : HashTable K V → K → V → Option (HashTable K V))
    (acc : HashTable K V) {e : HashTableEntry K V} (rest : List (HashTableEntry K V))
    (h : e.is_alive = false) :
    reinsert putFn acc (e :: rest) = reinsert putFn acc rest := by
  simp [reinsert, h]

theorem resize_eq (putFn : HashTable K V → K → V → Option (HashTable K V))
    (t : HashTable K V) :
    resize putFn t =
      match reinsert putFn
          { size := t.size * 2, table := List.replicate (t.size * 2) emptyEntry,
            current_size := 0 } t.table with
      | none => none
      | some t2 => some { t2 with current_size := countAlive t.table } := rfl

end Unfe

theorem writeAt_size (t : HashTable K V) (i : Nat) (k : K) (v : V) :
    (writeAt t i k v).size = t.size := rfl

theorem writeAt_current_size (t : HashTable K V) (i : Nat) (k : K) (v : V) :
    (writeAt t i k v).current_size = t.current_size + 1 := rfl

theorem writeAt_length (t : HashTable K V) (i : Nat) (k : K) (v : V) :
    (writeAt t i k v).table.length = t.table.length := by
  simp [writeAt]

theorem writeAt_alive_imp_used {t : HashTable K V} (i : Nat) (k : K) (v : V)
    (h : ∀ e ∈ t.table, e.is_alive = true → e.has_been_used = true) :
    ∀ e ∈ (writeAt t i k v).table, e.is_alive = true → e.has_been_used = true := by
  intro e he ha
  rcases List.mem_or_eq_of_mem_set he with h1 | rfl
  · exact h e h1 ha
  · rfl

theorem writeAt_countUsed_le (t : HashTable K V) (i : Nat) (k : K) (v : V) :
    countUsed (writeAt t i k v).table ≤ countUsed t.table + 1 :=
  countP_set_le t.table i _ _

theorem writeAt_countAlive_le (t : HashTable K V) (i : Nat) (k : K) (v : V) :
    countAlive (writeAt t i k v).table ≤ countAlive t.table + 1 :=
  countP_set_le t.table i _ _

/-- Core of the `resize` correctness argument (counting form): re-inserting
a slot list whose live entries fit strictly under half the accumulator's
capacity succeeds with any resize budget, never triggers a nested resize,
and raises the occupancy by exactly the number of live entries. -/
theorem reinsert_count (hash : K → Nat) :
    ∀ (l : List (HashTableEntry K V)) (acc : HashTable K V),
      acc.table.length = acc.size →
      0 < acc.size →
      (∀ e ∈ acc.table, e.is_alive = true → e.has_been_used = true) →
      countUsed acc.table ≤ acc.current_size →
      acc.current_size + countAlive l < acc.size / 2 →
      ∃ t2, (∀ f, reinsert (put_fueled hash f) acc l = some t2) ∧
        t2.table.length = t2.size ∧ t2.size = acc.size ∧
        (∀ e ∈ t2.table, e.is_alive = true → e.has_been_used = true) ∧
        countUsed t2.table ≤ t2.current_size ∧
        t2.current_size = acc.current_size + countAlive l
  | [], acc, hlen, hs, haiu, hcu, hbound =>
    ⟨acc, fun _ => rfl, hlen, rfl, haiu, hcu, by simp [countAlive]⟩
  | e :: rest, acc, hlen, hs, haiu, hcu, hbound => by
    by_cases hal : e.is_alive = true
    · have hca : countAlive (e :: rest) = countAlive rest + 1 := by
        simp [countAlive, List.countP_cons, hal]
      rw [hca] at hbound
      have hInvAcc : Inv acc := ⟨hlen, hs, haiu, hcu, by omega⟩
      obtain ⟨d, hd, hfs, _, _⟩ := find_slot_inv hash hInvAcc e.key
      have hnt : acc.current_size + 1 < acc.size / 2 := by omega
      have hput := put_fueled_of_no_trigger hash e.value hfs hnt
      obtain ⟨t2, hrun, ht2len, ht2size, ht2aiu, ht2cu, ht2cs⟩ :=
        reinsert_count hash rest
          (writeAt acc ((hash e.key % acc.size + d) % acc.size) e.key e.value)
          (by rw [writeAt_length, writeAt_size]; exact hlen)
          (by rw [writeAt_size]; exact hs)
          (writeAt_alive_imp_used _ _ _ haiu)
          (by
            have h1 := writeAt_countUsed_le acc ((hash e.key % acc.size + d) % acc.size)
              e.key e.value
            rw [writeAt_current_size]
            omega)
          (by rw [writeAt_current_size, writeAt_size]; omega)
      refine ⟨t2, ?_, ht2len, by rw [ht2size, writeAt_size], ht2aiu, ht2cu, ?_⟩
      · intro f
        rw [reinsert_cons_alive _ _ _ hal, hput f]
        exact hrun f
      · rw [ht2cs, writeAt_current_size, hca]
        omega
    · have hal' : e.is_alive = false := by
        cases hb : e.is_alive
        · rfl
        · exact absurd hb hal
      have hca : countAlive (e :: rest) = countAlive rest := by
        simp [countAlive, List.countP_cons, hal']
      rw [hca] at hbound
      obtain ⟨t2, hrun, h1, h2, h3, h4, h5⟩ :=
        reinsert_count hash rest acc hlen hs haiu hcu hbound
      exact ⟨t2, fun f => by rw [reinsert_cons_dead _ _ _ hal']; exact hrun f,
        h1, h2, h3, h4, by rw [h5, hca]⟩

/-- `resize` succeeds with any budget on a table whose live entries fit
under its capacity, doubles the capacity, and sets the occupancy to the
number of live entries. -/
theorem resize_inv (hash : K → Nat) {t1 : HashTable K V}
    (hlen : t1.table.length = t1.size) (hs : 0 < t1.size)
    (hca : countAlive t1.table < t1.size) :
    ∃ t', (∀ f, resize (put_fueled hash f) t1 = some t') ∧
      t'.table.length = t'.size ∧ t'.size = t1.size * 2 ∧
      (∀ e ∈ t'.table, e.is_alive = true → e.has_been_used = true) ∧
      countUsed t'.table ≤ t'.current_size ∧
      t'.current_size = countAlive t1.table := by
  have hfresh_len : (List.replicate (t1.size * 2) (emptyEntry : HashTableEntry K V)).length
      = t1.size * 2 := by simp
  have hfresh_aiu : ∀ e ∈ List.replicate (t1.size * 2) (emptyEntry : HashTableEntry K V),
      e.is_alive = true → e.has_been_used = true := by
    intro e he ha
    rw [List.eq_of_mem_replicate he] at ha
    exact absurd ha (by simp [emptyEntry])
  have hfresh_cu : countUsed (List.replicate (t1.size * 2) (emptyEntry : HashTableEntry K V)) = 0 :=
    countP_replicate_false _ _ _ (by simp [emptyEntry])
  have hdiv : t1.size * 2 / 2 = t1.size := Nat.mul_div_cancel _ (by omega)
  have hpos2 : 0 < t1.size * 2 := by omega
  have hcu2 : countUsed (List.replicate (t1.size * 2) (emptyEntry : HashTableEntry K V))
      ≤ 0 := le_of_eq hfresh_cu
  have hbound2 : (0 : Nat) + countAlive t1.table < t1.size * 2 / 2 := by
    rw [hdiv]
    omega
  obtain ⟨t2, hrun, h1, h2, h3, h4, h5⟩ :=
    reinsert_count hash t1.table
      { size := t1.size * 2, table := List.replicate (t1.size * 2) emptyEntry,
        current_size := 0 }
      hfresh_len hpos2 hfresh_aiu hcu2 hbound2
  refine ⟨{ t2 with current_size := countAlive t1.table }, ?_, h1, by simpa using h2,
    h3, ?_, rfl⟩
  · intro f
    rw [resize_eq, hrun f]
  · simpa [h5] using h4

/-- `put` preserves the invariant; moreover any positive resize budget
suffices, and the capacity never shrinks. -/
theorem put_inv (hash : K → Nat) {t : HashTable K V} (hInv : Inv t) (k : K) (v : V) :
    ∃ t', (∀ f, put_fueled hash (f + 1) t k v = some t') ∧ Inv t' ∧ t.size ≤ t'.size := by
  obtain ⟨d, hd, hfs, _, _⟩ := find_slot_inv hash hInv k
  obtain ⟨hlen, hs, haiu, hcu, hcs⟩ := hInv
  set i := (hash k % t.size + d) % t.size with hi
  by_cases htr : t.current_size + 1 < t.size / 2
  · refine ⟨writeAt t i k v, fun f => put_fueled_of_no_trigger hash v hfs htr (f + 1),
      ⟨?_, ?_, ?_, ?_, ?_⟩, le_of_eq (writeAt_size t i k v).symm⟩
    · rw [writeAt_length]; exact hlen
    · exact hs
    · exact writeAt_alive_imp_used _ _ _ haiu
    · exact le_trans (writeAt_countUsed_le t i k v) (by rw [writeAt_current_size]; omega)
    · rw [writeAt_current_size, writeAt_size]; exact htr
  · have ht2 : t.size / 2 ≤ t.current_size + 1 := by omega
    have hca1 : countAlive (writeAt t i k v).table < (writeAt t i k v).size := by
      have h1 := writeAt_countAlive_le t i k v
      have h2 := countAlive_le_countUsed haiu
      have h3 : t.size / 2 ≤ t.size := Nat.div_le_self _ _
      have h4 : t.size / 2 < t.size := Nat.div_lt_self hs (by omega)
      rw [writeAt_size]
      omega
    obtain ⟨t', hrun, h1, h2, h3, h4, h5⟩ :=
      resize_inv hash (by rw [writeAt_length, writeAt_size]; exact hlen)
        (by rw [writeAt_size]; exact hs) hca1
    refine ⟨t', fun f => ?_, ⟨h1, ?_, h3, h4, ?_⟩, ?_⟩
    · rw [put_fueled_of_trigger hash v hfs ht2 f]
      exact hrun f
    · rw [h2, writeAt_size]; omega
    · rw [h5, h2, writeAt_size]
      have h6 : countAlive (writeAt t i k v).table ≤ countUsed (writeAt t i k v).table :=
        countAlive_le_countUsed (writeAt_alive_imp_used _ _ _ haiu)
      have h7 := writeAt_countUsed_le t i k v
      have h8 := writeAt_current_size t i k v
      have h9 : t.size * 2 / 2 = t.size := Nat.mul_div_cancel _ (by omega)
      have h10 : t.current_size + 1 ≤ t.size / 2 := by omega
      have h11 : t.size / 2 < t.size := Nat.div_lt_self hs (by omega)
      omega
    · rw [h2, writeAt_size]; omega

/-- `delete` preserves the invariant and never changes capacity or
occupancy. -/
theorem delete_inv (hash : K → Nat) {t : HashTable K V} (hInv : Inv t) (k : K) :
    ∃ t', delete hash t k = some t' ∧ Inv t' ∧ t'.size = t.size ∧
      t'.current_size = t.current_size := by
  obtain ⟨d, hd, hfs, _, _⟩ := find_slot_inv hash hInv k
  obtain ⟨hlen, hs, haiu, hcu, hcs⟩ := hInv
  set i := (hash k % t.size + d) % t.size with hi
  have hilt : i < t.size := Nat.mod_lt _ hs
  have hget : t.table.get? i = some (slotAt t i) := get?_slotAt (hlen ▸ hilt)
  have hget2 : t.table[i]? = some (slotAt t i) := by
    rw [← List.get?_eq_getElem?]
    exact hget
  by_cases hkey : (slotAt t i).key = k
  · refine ⟨{ t with table := t.table.set i { slotAt t i with is_alive := false } },
      ?_, ⟨?_, hs, ?_, ?_, hcs⟩, rfl, rfl⟩
    · simp [delete, hfs, hget2, hkey]
    · simpa using hlen
    · intro e he ha
      rcases List.mem_or_eq_of_mem_set he with h1 | rfl
      · exact haiu e h1 ha
      · exact absurd ha (by simp)
    · rw [show countUsed (t.table.set i { slotAt t i with is_alive := false })
          = countUsed t.table from countP_set_same _ _ _ _ _ hget rfl]
      exact hcu
  · exact ⟨t, by simp [delete, hfs, hget2, hkey], ⟨hlen, hs, haiu, hcu, hcs⟩, rfl, rfl⟩

/-- The fresh table of any capacity at least 2 satisfies the invariant. -/
theorem new_inv (C : Nat) (hC : 2 ≤ C) : Inv (new C : HashTable K V) := by
  refine ⟨by simp [new], by show (0 : Nat) < C; omega, ?_, ?_, ?_⟩
  · intro e he ha
    rw [List.eq_of_mem_replicate he] at ha
    exact absurd ha (by simp [emptyEntry])
  · have h0 : countUsed (List.replicate C (emptyEntry : HashTableEntry K V)) = 0 :=
      countP_replicate_false _ _ _ (by simp [emptyEntry])
    simp [new, h0]
  · show (0 : Nat) < C / 2
    omega

theorem getD_replicate_self {α : Type} (a : α) :
    ∀ (n i : Nat), (List.replicate n a).getD i a = a
  | 0, _ => rfl
  | n + 1, 0 => rfl
  | n + 1, i + 1 => getD_replicate_self a n i


theorem reinsert_cons_live (putFn : HashTable K V → K → V → Option (HashTable K V))
    (acc : HashTable K V) (k : K) (v : V) (rest : List (HashTableEntry K V)) :
    reinsert putFn acc (liveEntry k v :: rest) =
      match putFn acc k v with
      | none => none
      | some acc2 => reinsert putFn acc2 rest := rfl

theorem reinsert_cons_empty (putFn : HashTable K V → K → V → Option (HashTable K V))
    (acc : HashTable K V) (rest : List (HashTableEntry K V)) :
    reinsert putFn acc (emptyEntry :: rest) = reinsert putFn acc rest := rfl

/-- On an all-never-used table the probe stops immediately at the home
index. -/
theorem find_slot_fresh (hash : K → Nat) (n : Nat) (hn : 0 < n) (k : K) :
    find_slot hash (new n : HashTable K V) k = some (hash k % n) := by
  have hlen : (new n : HashTable K V).table.length = (new n : HashTable K V).size := by
    simp [new]
  have hstart : hash k % n < n := Nat.mod_lt _ hn
  have hstop : probeContinues (slotAt (new n : HashTable K V) ((hash k % n + 0) % n)) k
      = false :=
    probeContinues_of_not_used (by simp [slotAt, new, getD_replicate_self, emptyEntry])
  have h0 := findSlotLoop_spec (t := (new n : HashTable K V)) hlen 0 n (hash k % n)
    hstart hn hstop (by omega)
  rw [find_slot, if_neg (show ¬((new n : HashTable K V).size = 0) by
    simp [new]; omega)]
  show findSlotLoop (new n) k n (hash k % n) = some (hash k % n)
  rw [h0, Nat.add_zero]
  show some (hash k % n % n) = some (hash k % n)
  rw [Nat.mod_mod_of_dvd _ (dvd_refl n)]

/-- One `put` starting from the capacity-1 table: the write triggers a
resize, whose single re-insertion immediately crosses the new threshold
and triggers a nested resize; the result is a capacity-4 table holding
the pair at its home index with occupancy 1.  Any resize budget of at
least 2 yields this result. -/
theorem new_one_put (hash : K → Nat) (k : K) (v : V) (f : Nat) :
    put_fueled hash (f + 2) (new 1 : HashTable K V) k v =
      some { size := 4,
             table := (List.replicate 4 (emptyEntry : HashTableEntry K V)).set (hash k % 4)
               (liveEntry k v),
             current_size := 1 } := by
  have hfs1 : find_slot hash (new 1 : HashTable K V) k = some 0 := by
    have h := find_slot_fresh (V := V) hash 1 (by omega) k
    rwa [Nat.mod_one] at h
  have hput3 : ∀ g, put_fueled hash g (new 4 : HashTable K V) k v =
      some { size := 4,
             table := (List.replicate 4 (emptyEntry : HashTableEntry K V)).set (hash k % 4)
               (liveEntry k v),
             current_size := 1 } := by
    intro g
    have hfs3 := find_slot_fresh (V := V) hash 4 (by omega) k
    have hnt : (new 4 : HashTable K V).current_size + 1 < (new 4 : HashTable K V).size / 2 := by
      show (0 : Nat) + 1 < 4 / 2
      omega
    have h1 := put_fueled_of_no_trigger hash v hfs3 hnt g
    rw [h1]
    rfl
  have hres2 : ∀ g, resize (put_fueled hash g)
      ({ size := 2,
         table := (List.replicate 2 (emptyEntry : HashTableEntry K V)).set (hash k % 2)
           (liveEntry k v),
         current_size := 1 } : HashTable K V) =
      some { size := 4,
             table := (List.replicate 4 (emptyEntry : HashTableEntry K V)).set (hash k % 4)
               (liveEntry k v),
             current_size := 1 } := by
    intro g
    have h2cases : hash k % 2 = 0 ∨ hash k % 2 = 1 := by omega
    have hrei0 : reinsert (put_fueled hash g) (new 4 : HashTable K V)
        [liveEntry k v, emptyEntry] =
        some { size := 4,
               table := (List.replicate 4 (emptyEntry : HashTableEntry K V)).set (hash k % 4)
                 (liveEntry k v),
               current_size := 1 } := by
      rw [reinsert_cons_live, hput3 g]
      rfl
    have hrei1 : reinsert (put_fueled hash g) (new 4 : HashTable K V)
        [emptyEntry, liveEntry k v] =
        some { size := 4,
               table := (List.replicate 4 (emptyEntry : HashTableEntry K V)).set (hash k % 4)
                 (liveEntry k v),
               current_size := 1 } := by
      rw [reinsert_cons_empty, reinsert_cons_live, hput3 g]
      rfl
    rcases h2cases with h2 | h2
    · rw [h2, resize_eq]
      show (match reinsert (put_fueled hash g) (new 4 : HashTable K V)
              [liveEntry k v, emptyEntry] with
            | none => none
            | some t2 => some { t2 with current_size := 1 }) =
        some { size := 4,
               table := (List.replicate 4 (emptyEntry : HashTableEntry K V)).set (hash k % 4)
                 (liveEntry k v),
               current_size := 1 }
      rw [hrei0]
    · rw [h2, resize_eq]
      show (match reinsert (put_fueled hash g) (new 4 : HashTable K V)
              [emptyEntry, liveEntry k v] with
            | none => none
            | some t2 => some { t2 with current_size := 1 }) =
        some { size := 4,
               table := (List.replicate 4 (emptyEntry : HashTableEntry K V)).set (hash k % 4)
                 (liveEntry k v),
               current_size := 1 }
      rw [hrei1]
  have hput2 : ∀ g, put_fueled hash (g + 1) (new 2 : HashTable K V) k v =
      some { size := 4,
             table := (List.replicate 4 (emptyEntry : HashTableEntry K V)).set (hash k % 4)
               (liveEntry k v),
             current_size := 1 } := by
    intro g
    have hfs2 := find_slot_fresh (V := V) hash 2 (by omega) k
    have htr2 : (new 2 : HashTable K V).size / 2 ≤ (new 2 : HashTable K V).current_size + 1 := by
      show (2 : Nat) / 2 ≤ 0 + 1
      omega
    rw [put_fueled_of_trigger hash v hfs2 htr2 g]
    exact hres2 g
  have htr1 : (new 1 : HashTable K V).size / 2 ≤ (new 1 : HashTable K V).current_size + 1 := by
    show (1 : Nat) / 2 ≤ 0 + 1
    omega
  rw [show f + 2 = (f + 1) + 1 from rfl,
    put_fueled_of_trigger hash v hfs1 htr1 (f + 1), resize_eq]
  show (match reinsert (put_fueled hash (f + 1)) (new 2 : HashTable K V) [liveEntry k v] with
        | none => none
        | some t2 => some { t2 with current_size := 1 }) =
    some { size := 4,
           table := (List.replicate 4 (emptyEntry : HashTableEntry K V)).set (hash k % 4)
             (liveEntry k v),
           current_size := 1 }
  rw [reinsert_cons_live, hput2 f]
  rfl

/-- The state reached by one `put` from the capacity-1 table satisfies the
invariant. -/
theorem new_one_put_inv (hash : K → Nat) (k : K) (v : V) :
    Inv ({ size := 4,
           table := (List.replicate 4 (emptyEntry : HashTableEntry K V)).set (hash k % 4)
             (liveEntry k v),
           current_size := 1 } : HashTable K V) := by
  refine ⟨by simp, by show (0 : Nat) < 4; omega, ?_, ?_,
    by show (1 : Nat) < 4 / 2; omega⟩
  · intro e he ha
    rcases List.mem_or_eq_of_mem_set he with h1 | rfl
    · rw [List.eq_of_mem_replicate h1] at ha
      exact absurd ha (by simp [emptyEntry])
    · rfl
  · show countUsed ((List.replicate 4 (emptyEntry : HashTableEntry K V)).set (hash k % 4)
      (liveEntry k v)) ≤ 1
    have h1 := countP_set_le (List.replicate 4 (emptyEntry : HashTableEntry K V))
      (hash k % 4) (liveEntry k v) (fun e => e.has_been_used)
    have h2 : countUsed (List.replicate 4 (emptyEntry : HashTableEntry K V)) = 0 :=
      countP_replicate_false _ _ _ (by simp [emptyEntry])
    unfold countUsed at h2 ⊢
    omega

/-- `delete` on the untouched capacity-1 table returns it unchanged: the
probe stops at the single never-used slot, and clearing the live flag of
a slot whose flag is already clear is the identity. -/
theorem delete_new_one (hash : K → Nat) (k : K) :
    delete hash (new 1 : HashTable K V) k = some (new 1) := by
  have hfs : find_slot hash (new 1 : HashTable K V) k = some 0 := by
    have h := find_slot_fresh (V := V) hash 1 (by omega) k
    rwa [Nat.mod_one] at h
  rw [delete, hfs]
  show (if (emptyEntry : HashTableEntry K V).key = k then
          some { (new 1 : HashTable K V) with
                 table := (new 1 : HashTable K V).table.set 0
                   { (emptyEntry : HashTableEntry K V) with is_alive := false } }
        else some (new 1)) = some (new 1)
  split
  · rfl
  · rfl

/-- Every reachable state satisfies the invariant, except the untouched
capacity-1 table. -/
theorem reach_inv {hash : K → Nat} {C : Nat} {t : HashTable K V}
    (h : Reach hash C t) : Inv t ∨ (C = 1 ∧ t = (new 1 : HashTable K V)) := by
  induction h with
  | init hC =>
    rename_i C
    rcases Nat.lt_or_ge C 2 with h2 | h2
    · right
      have hC1 : C = 1 := by omega
      exact ⟨hC1, by rw [hC1]⟩
    · exact Or.inl (new_inv C h2)
  | @put_step t k v t' hre hput ih =>
    rename_i C
    left
    rcases ih with hInv | ⟨hC1, hnew1⟩
    · obtain ⟨t'', hrun, hInv', _⟩ := put_inv hash hInv k v
      have h2 : put hash t k v = some t'' := hrun 1
      rw [hput] at h2
      obtain rfl : t' = t'' := by injection h2
      exact hInv'
    · subst hnew1
      have h2 : put hash (new 1 : HashTable K V) k v =
          some { size := 4,
                 table := (List.replicate 4 (emptyEntry : HashTableEntry K V)).set
                   (hash k % 4) (liveEntry k v),
                 current_size := 1 } := new_one_put hash k v 0
      rw [hput] at h2
      obtain rfl : t' = _ := by injection h2
      exact new_one_put_inv hash k v
  | @delete_step t k t' hre hdel ih =>
    rename_i C
    rcases ih with hInv | ⟨hC1, hnew1⟩
    · obtain ⟨t'', hrun, hInv', _, _⟩ := delete_inv hash hInv k
      rw [hdel] at hrun
      obtain rfl : t' = t'' := by injection hrun
      exact Or.inl hInv'
    · subst hnew1
      have h2 := delete_new_one (V := V) hash k
      rw [hdel] at h2
      obtain rfl : t' = new 1 := by injection h2
      exact Or.inr ⟨hC1, rfl⟩

end HashTable

namespace HashTable

variable {K V : Type} [DecidableEq K] [Inhabited K] [Inhabited V]

theorem find_slot_some_get? {hash : K → Nat} {t : HashTable K V} {k : K} {i : Nat}
    (hfs : find_slot hash t k = some i) : ∃ e, t.table.get? i = some e := by
  rw [find_slot] at hfs
  split at hfs
  · exact absurd hfs (by simp)
  · exact findSlotLoop_some_get? hfs

/-- Claim C1 (counterexample): from `construct(10)`, the sequence
`put 0 5; delete 0` reaches a state with zero LIVE slots but occupancy 1,
because `delete` clears the live flag without decrementing
`current_size`; the claimed equality between occupancy and the number of
LIVE slots fails on a reachable state. -/
theorem C1_counterexample :
    ((put hash0 (new 10 : HashTable Nat Nat) 0 5).bind
      (fun t => delete hash0 t 0)).map
      (fun t => (countAlive t.table, t.current_size)) = some (0, 1) := by decide

/-- Claim C1 (amended): on every state reachable from `construct(C)` with
`C >= 1` by `put` and `delete` calls, the occupancy counter is an upper
bound on the number of LIVE slots (the equality claimed by the spec fails;
only this inequality is preserved by every public operation). -/
theorem C1_occupancy_bounds_live {hash : K → Nat} {C : Nat} {t : HashTable K V}
    (h : Reach hash C t) : countAlive t.table ≤ t.current_size := by
  rcases reach_inv h with hInv | ⟨_, rfl⟩
  · exact le_trans (countAlive_le_countUsed hInv.2.2.1) hInv.2.2.2.1
  · have h0 : countAlive ((new 1 : HashTable K V).table) = 0 :=
      countP_replicate_false _ _ _ (by simp [emptyEntry])
    exact le_of_eq h0

theorem C1_witness :
    countAlive (new 10 : HashTable Nat Nat).table ≤
      (new 10 : HashTable Nat Nat).current_size :=
  C1_occupancy_bounds_live (show Reach hash0 10 (new 10 : HashTable Nat Nat) from
    Reach.init 10 (by omega))

/-- Claim C2 (counterexample): from `construct(10)`, after `put 0 5` the
occupancy is 1; `delete 0` marks the slot FORMERLY_LIVE (live flag
cleared, ever-used kept) but leaves occupancy at 1, whereas the claim
requires it to be decremented to 0. -/
theorem C2_counterexample :
    ((put hash0 (new 10 : HashTable Nat Nat) 0 5).bind
      (fun t => delete hash0 t 0)).map
      (fun t => (t.current_size, t.table.get? 0)) =
    some (1, some { key := 0, value := 5, is_alive := false,
                    has_been_used := true }) := by decide

/-- Claim C2 (amended): whenever the probe walk of `delete k` terminates
at index `i`, the effect is exactly: if the slot at `i` holds key `k` its
live flag is cleared and its ever-used flag kept, otherwise the state is
unchanged; the occupancy counter and the capacity are never changed (the
spec's decrement does not happen), and clearing an already non-live slot
is also the identity. -/
theorem C2_delete_semantics (hash : K → Nat) (t : HashTable K V) (k : K) (i : Nat)
    (hfs : find_slot hash t k = some i) :
    ∃ e t', t.table.get? i = some e ∧ delete hash t k = some t' ∧
      t' = (if e.key = k
            then { t with table := t.table.set i { e with is_alive := false } }
            else t) ∧
      t'.current_size = t.current_size ∧ t'.size = t.size ∧
      (e.is_alive = false → t' = t) := by
  obtain ⟨e, hget⟩ := find_slot_some_get? hfs
  have hget2 : t.table[i]? = some e := by
    rw [← List.get?_eq_getElem?]
    exact hget
  by_cases hkey : e.key = k
  · refine ⟨e, { t with table := t.table.set i { e with is_alive := false } },
      hget, by simp [delete, hfs, hget2, hkey], by rw [if_pos hkey], rfl, rfl, ?_⟩
    intro halive
    have he : ({ e with is_alive := false } : HashTableEntry K V) = e := by
      cases e
      simp only at halive
      rw [halive]
    rw [he, set_get?_self t.table i e hget]
  · exact ⟨e, t, hget, by simp [delete, hfs, hget2, hkey], by rw [if_neg hkey],
      rfl, rfl, fun _ => rfl⟩

theorem C2_witness :
    ∃ e t', (new 10 : HashTable Nat Nat).table.get? 0 = some e ∧
      delete hash0 (new 10 : HashTable Nat Nat) 0 = some t' ∧
      t' = (if e.key = 0
            then { (new 10 : HashTable Nat Nat) with
                   table := (new 10 : HashTable Nat Nat).table.set 0
                     { e with is_alive := false } }
            else (new 10 : HashTable Nat Nat)) ∧
      t'.current_size = (new 10 : HashTable Nat Nat).current_size ∧
      t'.size = (new 10 : HashTable Nat Nat).size ∧
      (e.is_alive = false → t' = (new 10 : HashTable Nat Nat)) :=
  C2_delete_semantics hash0 (new 10) 0 0 (by decide)

/-- Claim C7 (counterexample): `put` on the table `construct(1)` fails
when it is only allowed one resize (budget 1) and succeeds when a nested
resize is allowed (budget 2): re-inserting the single live entry into the
doubled, capacity-2 array reaches occupancy 1 = 2/2 and crosses the
load-factor threshold, triggering a nested resize inside the resize. -/
theorem C7_counterexample :
    put_fueled hash0 1 (new 1 : HashTable Nat Nat) 0 0 = none ∧
    (put_fueled hash0 2 (new 1 : HashTable Nat Nat) 0 0).map (fun t => t.size)
      = some 4 := by decide

/-- Claim C7 (amended): on every state reachable from `construct(C)` with
`C >= 2`, a `put` with a budget of a single resize already succeeds and
agrees with the unrestricted `put`; that is, the re-insertion phase of a
triggered resize never crosses the load-factor threshold, so no nested
resize is triggered — this fails only for initial capacity 1. -/
theorem C7_no_nested_resize {hash : K → Nat} {C : Nat} {t : HashTable K V}
    (h : Reach hash C t) (hC : 2 ≤ C) (k : K) (v : V) :
    ∃ t', put_fueled hash 1 t k v = some t' ∧ put hash t k v = some t' := by
  rcases reach_inv h with hInv | ⟨hC1, _⟩
  · obtain ⟨t', hrun, _, _⟩ := put_inv hash hInv k v
    exact ⟨t', hrun 0, hrun 1⟩
  · omega

theorem C7_witness :
    ∃ t', put_fueled hash0 1 (new 10 : HashTable Nat Nat) 3 7 = some t' ∧
      put hash0 (new 10 : HashTable Nat Nat) 3 7 = some t' :=
  C7_no_nested_resize (Reach.init 10 (by omega)) (by omega) 3 7

/-- Claim C8 (confirmed): on every state reachable from `construct(C)`
with `C >= 1` by `put` and `delete` calls, `find_slot` terminates (the
walk stops within `size` steps), a NEVER_USED slot exists in the table,
and the full `put` and `delete` operations (which call `find_slot`, also
from within `resize`) complete successfully. -/
theorem C8_find_slot_terminates {hash : K → Nat} {C : Nat} {t : HashTable K V}
    (h : Reach hash C t) (k : K) (v : V) :
    (∃ i, find_slot hash t k = some i) ∧
    (∃ e ∈ t.table, e.has_been_used = false) ∧
    (∃ t', put hash t k v = some t') ∧
    (∃ t', delete hash t k = some t') := by
  rcases reach_inv h with hInv | ⟨_, rfl⟩
  · refine ⟨?_, ?_, ?_, ?_⟩
    · obtain ⟨d, _, hfs, _, _⟩ := find_slot_inv hash hInv k
      exact ⟨_, hfs⟩
    · obtain ⟨hlen, hs, haiu, hcu, hcs⟩ := hInv
      have h1 : countUsed t.table < t.table.length := by
        have h2 : t.size / 2 ≤ t.size := Nat.div_le_self _ _
        omega
      obtain ⟨j, hj, hjp⟩ := exists_false_getD_of_countP_lt t.table _ emptyEntry h1
      exact ⟨t.table.getD j emptyEntry,
        List.get?_mem (get?_eq_some_getD t.table j emptyEntry hj), hjp⟩
    · obtain ⟨t', hrun, _, _⟩ := put_inv hash hInv k v
      exact ⟨t', hrun 1⟩
    · obtain ⟨t', hdel, _, _, _⟩ := delete_inv hash hInv k
      exact ⟨t', hdel⟩
  · refine ⟨⟨0, ?_⟩, ⟨emptyEntry, ?_, rfl⟩, ⟨_, new_one_put hash k v 0⟩,
      ⟨_, delete_new_one hash k⟩⟩
    · have h := find_slot_fresh (V := V) hash 1 (by omega) k
      rwa [Nat.mod_one] at h
    · simp [new]

theorem C8_witness :
    (∃ i, find_slot hash0 (new 10 : HashTable Nat Nat) 3 = some i) ∧
    (∃ e ∈ (new 10 : HashTable Nat Nat).table, e.has_been_used = false) ∧
    (∃ t', put hash0 (new 10 : HashTable Nat Nat) 3 7 = some t') ∧
    (∃ t', delete hash0 (new 10 : HashTable Nat Nat) 3 = some t') :=
  C8_find_slot_terminates (Reach.init 10 (by omega)) 3 7

/-- Claim C9 (counterexample): `construct(0)` is not rejected — `new 0`
returns normally with capacity 0 and an empty slot array, contradicting
the claim that construction with capacity 0 terminates the program and
that `construct` only yields positive capacities (the failure happens
later, at the first operation's `hash % size`). -/
theorem C9_counterexample :
    (new 0 : HashTable Nat Nat).size = 0 ∧
    find_slot hash0 (new 0 : HashTable Nat Nat) 0 = none ∧
    put hash0 (new 0 : HashTable Nat Nat) 0 0 = none := by decide

/-- Claim C9 (amended): `new` performs no precondition check: `new 0`
succeeds and yields a table of capacity 0 with no slots, and it is the
subsequent operations that fail, at the `hash % size` computation (a
division by zero, modelled as the absence of a result): `find_slot`,
`put`, `get` and `delete` all fail on the capacity-0 table. -/
theorem C9_construct_zero_unchecked (hash : K → Nat) (k : K) (v : V) (fuel : Nat) :
    (new 0 : HashTable K V).size = 0 ∧
    (new 0 : HashTable K V).table = [] ∧
    find_slot hash (new 0 : HashTable K V) k = none ∧
    put_fueled hash fuel (new 0 : HashTable K V) k v = none ∧
    get hash (new 0 : HashTable K V) k = none ∧
    delete hash (new 0 : HashTable K V) k = none := by
  refine ⟨rfl, rfl, rfl, ?_, rfl, rfl⟩
  cases fuel <;> rfl

/-- Claim C10 (confirmed): on every reachable state, every slot is in one
of exactly three states: NEVER_USED (both flags clear), LIVE (both flags
set), or FORMERLY_LIVE (ever-used set, live clear); the fourth flag
combination (live set, ever-used clear) never occurs. -/
theorem C10_three_slot_states {hash : K → Nat} {C : Nat} {t : HashTable K V}
    (h : Reach hash C t) :
    ∀ e ∈ t.table,
      (e.has_been_used = false ∧ e.is_alive = false) ∨
      (e.has_been_used = true ∧ e.is_alive = true) ∨
      (e.has_been_used = true ∧ e.is_alive = false) := by
  have haiu : ∀ e ∈ t.table, e.is_alive = true → e.has_been_used = true := by
    rcases reach_inv h with hInv | ⟨_, rfl⟩
    · exact hInv.2.2.1
    · intro e he ha
      rw [List.eq_of_mem_replicate he] at ha
      exact absurd ha (by simp [emptyEntry])
  intro e he
  cases ha : e.is_alive
  · cases hu : e.has_been_used
    · exact Or.inl ⟨rfl, rfl⟩
    · exact Or.inr (Or.inr ⟨rfl, rfl⟩)
  · exact Or.inr (Or.inl ⟨haiu e he ha, rfl⟩)

theorem C10_witness :
    ((emptyEntry : HashTableEntry Nat Nat).has_been_used = false ∧
     (emptyEntry : HashTableEntry Nat Nat).is_alive = false) ∨
    ((emptyEntry : HashTableEntry Nat Nat).has_been_used = true ∧
     (emptyEntry : HashTableEntry Nat Nat).is_alive = true) ∨
    ((emptyEntry : HashTableEntry Nat Nat).has_been_used = true ∧
     (emptyEntry : HashTableEntry Nat Nat).is_alive = false) :=
  C10_three_slot_states (show Reach hash0 10 (new 10 : HashTable Nat Nat) from
    Reach.init 10 (by omega)) emptyEntry
    (by simp [new])

end HashTable

namespace HashTable

variable {K V : Type} [DecidableEq K] [Inhabited K] [Inhabited V]

/-- The probe loop depends only on the slot array and the capacity, not
on the occupancy counter. -/
theorem findSlotLoop_congr {t t' : HashTable K V} (htab : t.table = t'.table)
    (hsize : t.size = t'.size) (k : K) :
    ∀ fuel i, findSlotLoop t k fuel i = findSlotLoop t' k fuel i
  | 0, _ => rfl
  | fuel + 1, i => by
    rw [findSlotLoop, findSlotLoop, htab]
    cases hg : t'.table.get? i with
    | none => rfl
    | some e =>
      simp only [hg]
      by_cases hc : probeContinues e k
      · rw [if_pos hc, if_pos hc, hsize]
        exact findSlotLoop_congr htab hsize k fuel _
      · rw [if_neg hc, if_neg hc]

theorem find_slot_congr {hash : K → Nat} {t t' : HashTable K V}
    (htab : t.table = t'.table) (hsize : t.size = t'.size) (k : K) :
    find_slot hash t k = find_slot hash t' k := by
  rw [find_slot, find_slot, hsize]
  split
  · rfl
  · rw [findSlotLoop_congr htab hsize k]

theorem get_congr {hash : K → Nat} {t t' : HashTable K V}
    (htab : t.table = t'.table) (hsize : t.size = t'.size) (k : K) :
    get hash t k = get hash t' k := by
  rw [get, get, find_slot_congr htab hsize k]
  cases find_slot hash t' k with
  | none => rfl
  | some i =>
    simp only [htab]

/-- After `put` writes key `k` at the index its probe returned, a second
probe for `k` stops at the same index: the earlier slots of the walk are
unchanged and still continue the walk, and the written slot now holds
`k`, which stops it. -/
theorem find_slot_writeAt_self {hash : K → Nat} {t : HashTable K V} {k : K} {i : Nat}
    (hlen : t.table.length = t.size)
    (hfs : find_slot hash t k = some i) (v : V) :
    find_slot hash (writeAt t i k v) k = some i := by
  have hs : 0 < t.size := by
    rw [find_slot] at hfs
    split at hfs
    · exact absurd hfs (by simp)
    · exact Nat.pos_of_ne_zero (by assumption)
  obtain ⟨d, hd, hi, hstop, hmin⟩ := find_slot_sound hlen hfs
  have hstart : hash k % t.size < t.size := Nat.mod_lt _ hs
  have hilt : i < t.size := by rw [hi]; exact Nat.mod_lt _ hs
  have hlen1 : (writeAt t i k v).table.length = (writeAt t i k v).size := by
    rw [writeAt_length, writeAt_size]; exact hlen
  have hslot_i : slotAt (writeAt t i k v) i = liveEntry k v := by
    show (t.table.set i (liveEntry k v)).getD i emptyEntry = liveEntry k v
    exact getD_set_self t.table i _ _ (hlen ▸ hilt)
  have hslot_ne : ∀ j, j ≠ i → slotAt (writeAt t i k v) j = slotAt t j := by
    intro j hj
    show (t.table.set i (liveEntry k v)).getD j emptyEntry = t.table.getD j emptyEntry
    exact getD_set_other t.table i j _ _ hj
  have hstop1 : probeContinues (slotAt (writeAt t i k v) ((hash k % t.size + d) % t.size)) k
      = false := by
    rw [← hi, hslot_i]
    exact probeContinues_of_key_eq rfl
  have hmin1 : ∀ d', d' < d →
      probeContinues (slotAt (writeAt t i k v) ((hash k % t.size + d') % t.size)) k = true := by
    intro d' hd'
    have hne : (hash k % t.size + d') % t.size ≠ i := by
      intro heq
      rw [hi] at heq
      have := probe_index_inj hstart (by omega : d' < t.size) hd heq
      omega
    rw [hslot_ne _ hne]
    exact hmin d' hd'
  have hspec := findSlotLoop_spec (t := writeAt t i k v) hlen1 d t.size
    (hash k % t.size) hstart hd hstop1 hmin1
  rw [find_slot, if_neg (show ¬((writeAt t i k v).size = 0) from by
    rw [writeAt_size]; omega)]
  show findSlotLoop (writeAt t i k v) k t.size (hash k % t.size) = some i
  rw [hspec]
  show some ((hash k % t.size + d) % t.size) = some i
  rw [← hi]

/-- Claim C3 (counterexample): from `construct(10)`, a single `put 0 5`
leaves occupancy 1 while `put 0 5; put 0 5` leaves occupancy 2 — the
overwriting second `put` increments `current_size` again, so the
observable state (which includes occupancy) differs from a single put,
contradicting the claimed idempotence. -/
theorem C3_counterexample :
    ((put hash0 (new 10 : HashTable Nat Nat) 0 5).map (fun t => t.current_size)
      = some 1) ∧
    (((put hash0 (new 10 : HashTable Nat Nat) 0 5).bind
        (fun t => put hash0 t 0 5)).map (fun t => t.current_size) = some 2) := by
  decide

/-- Claim C3 (amended): when the probe for `k` terminates and the table
has room for two more occupancy increments without reaching the resize
threshold, `put(k,v); put(k,v)` and a single `put(k,v)` produce the same
slot array, the same capacity, and the same `get` results for every key;
only the occupancy counter differs, being one greater after the second
`put` (so put is NOT idempotent on occupancy). -/
theorem C3_put_put_same {hash : K → Nat} {t : HashTable K V} {k : K} {i : Nat} (v : V)
    (hlen : t.table.length = t.size)
    (hfs : find_slot hash t k = some i)
    (hroom : t.current_size + 2 < t.size / 2) :
    ∃ t1 t2, put hash t k v = some t1 ∧ put hash t1 k v = some t2 ∧
      t2.table = t1.table ∧ t2.size = t1.size ∧
      t2.current_size = t1.current_size + 1 ∧
      ∀ k', get hash t2 k' = get hash t1 k' := by
  have hs : 0 < t.size := by
    have h2 : 0 < t.size / 2 := by omega
    have := Nat.div_le_self t.size 2
    omega
  have hilt : i < t.size := by
    obtain ⟨d, hd, hi, _, _⟩ := find_slot_sound hlen hfs
    rw [hi]
    exact Nat.mod_lt _ hs
  have h1 : put hash t k v = some (writeAt t i k v) :=
    put_fueled_of_no_trigger hash v hfs (by omega) 2
  have hfs1 : find_slot hash (writeAt t i k v) k = some i :=
    find_slot_writeAt_self hlen hfs v
  have h2 : put hash (writeAt t i k v) k v = some (writeAt (writeAt t i k v) i k v) :=
    put_fueled_of_no_trigger hash v hfs1
      (by rw [writeAt_current_size, writeAt_size]; omega) 2
  have htab : (writeAt (writeAt t i k v) i k v).table = (writeAt t i k v).table := by
    show ((writeAt t i k v).table.set i (liveEntry k v)) = (writeAt t i k v).table
    apply set_get?_self
    have hget : (writeAt t i k v).table.get? i
        = some (slotAt (writeAt t i k v) i) :=
      get?_slotAt (by rw [writeAt_length, hlen]; exact hilt)
    rw [hget]
    show some ((t.table.set i (liveEntry k v)).getD i emptyEntry) = some (liveEntry k v)
    rw [getD_set_self t.table i _ _ (hlen ▸ hilt)]
  exact ⟨writeAt t i k v, writeAt (writeAt t i k v) i k v, h1, h2, htab, rfl, rfl,
    fun k' => get_congr htab rfl k'⟩

theorem C3_witness :
    ∃ t1 t2, put hash0 (new 30 : HashTable Nat Nat) 0 5 = some t1 ∧
      put hash0 t1 0 5 = some t2 ∧
      t2.table = t1.table ∧ t2.size = t1.size ∧
      t2.current_size = t1.current_size + 1 ∧
      ∀ k', get hash0 t2 k' = get hash0 t1 k' :=
  @C3_put_put_same Nat Nat _ _ _ hash0 (new 30) 0 0 5 (by decide) (by decide)
    (by decide)

end HashTable

namespace HashTable

variable {K V : Type} [DecidableEq K] [Inhabited K] [Inhabited V]







theorem slotAt_mem {t : HashTable K V} {i : Nat} (h : i < t.table.length) :
    slotAt t i ∈ t.table :=
  List.get?_mem (get?_slotAt h)

theorem countUsed_eq_countAlive {t : HashTable K V} (h : NoTomb t) :
    countUsed t.table = countAlive t.table :=
  List.countP_congr (fun e he => by rw [h e he])

/-- Under the no-tombstone invariant, the walk continues exactly on live
slots holding a different key. -/
theorem probeContinues_noTomb {e : HashTableEntry K V} {k : K}
    (h : e.has_been_used = e.is_alive) :
    probeContinues e k = (e.is_alive && !(e.key = k : Bool)) := by
  cases halive : e.is_alive with
  | false =>
    rw [probeContinues, h, halive]
    simp
  | true =>
    rw [probeContinues, h, halive]
    simp

/-- The walk from the home index of a live slot holding key `k` continues
at every slot strictly before it: those slots are live by the chain
invariant and hold other keys by uniqueness. -/
theorem walk_clear_to_key {hash : K → Nat} {t : HashTable K V} {k : K} {j : Nat}
    (hP : PCore hash t) (hj : j < t.size) (haj : (slotAt t j).is_alive = true)
    (hkj : (slotAt t j).key = k) :
    ∀ d', d' < probeDist t.size (hash k % t.size) j →
      probeContinues (slotAt t ((hash k % t.size + d') % t.size)) k = true := by
  obtain ⟨hlen, hs, hnt, huk, hch⟩ := hP
  intro d' hd'
  have hstart : hash k % t.size < t.size := Nat.mod_lt _ hs
  have hidx : (hash k % t.size + d') % t.size < t.size := Nat.mod_lt _ hs
  have halive : (slotAt t ((hash k % t.size + d') % t.size)).is_alive = true := by
    have := hch j hj haj d' (by rwa [hkj])
    rwa [hkj] at this
  have hkey : ¬ (slotAt t ((hash k % t.size + d') % t.size)).key = k := by
    intro hk
    have heq : (hash k % t.size + d') % t.size = j :=
      huk _ _ hidx hj halive haj (by rw [hk, hkj])
    have hdlt : d' < t.size :=
      lt_of_lt_of_le hd' (le_of_lt (probeDist_lt hs _ _))
    have hback : probeDist t.size (hash k % t.size) j = d' := by
      rw [← heq, probeDist_add hstart hdlt]
    omega
  rw [probeContinues_noTomb (hnt _ (slotAt_mem (hlen ▸ hidx))), halive]
  simpa using hkey

/-- Under the delete-free invariant, the probe for a stored key `k` finds
exactly the (unique) live slot holding `k`. -/
theorem find_slot_aliveKey {hash : K → Nat} {t : HashTable K V} {k : K} {j : Nat}
    (hP : PCore hash t) (hj : j < t.size) (haj : (slotAt t j).is_alive = true)
    (hkj : (slotAt t j).key = k) :
    find_slot hash t k = some j := by
  obtain ⟨hlen, hs, hnt, huk, hch⟩ := hP
  have hstart : hash k % t.size < t.size := Nat.mod_lt _ hs
  have hdj : probeDist t.size (hash k % t.size) j < t.size := probeDist_lt hs _ _
  have hjdist : (hash k % t.size + probeDist t.size (hash k % t.size) j) % t.size = j :=
    add_probeDist hstart hj
  have hstop : probeContinues
      (slotAt t ((hash k % t.size + probeDist t.size (hash k % t.size) j) % t.size)) k
      = false := by
    rw [hjdist]
    exact probeContinues_of_key_eq hkj
  have hmin := walk_clear_to_key ⟨hlen, hs, hnt, huk, hch⟩ hj haj hkj
  have hspec := findSlotLoop_spec (t := t) hlen
    (probeDist t.size (hash k % t.size) j) t.size (hash k % t.size) hstart hdj hstop hmin
  rw [find_slot, if_neg (by omega), hspec, hjdist]

/-- `get` finds a stored pair. -/
theorem get_mapsTo {hash : K → Nat} {t : HashTable K V} {k : K} {v : V}
    (hP : PCore hash t) (hm : MapsTo t k v) : get hash t k = some v := by
  obtain ⟨j, hj, hslot⟩ := hm
  have hfs : find_slot hash t k = some j :=
    find_slot_aliveKey hP hj (by rw [hslot]; rfl) (by rw [hslot]; rfl)
  rw [get, hfs]
  show (match t.table.get? j with
        | none => none
        | some e => if e.key = k ∧ e.is_alive = true then some e.value else none) = some v
  simp only [get?_slotAt (hP.1 ▸ hj), hslot]
  rw [if_pos ⟨rfl, rfl⟩]
  rfl

/-- The slot at which the probe of a delete-free table stops: either a
dead slot, in which case no live slot holds `k` anywhere, or the unique
live slot holding `k`. -/
theorem find_slot_dichotomy {hash : K → Nat} {t : HashTable K V}
    (hP : PCore hash t) (hca : countAlive t.table < t.table.length) (k : K) :
    ∃ i, find_slot hash t k = some i ∧ i < t.size ∧
      (((slotAt t i).is_alive = false ∧ ¬ AliveKey t k) ∨
       ((slotAt t i).is_alive = true ∧ (slotAt t i).key = k)) := by
  obtain ⟨hlen, hs, hnt, huk, hch⟩ := hP
  have hdead : ∃ j0, j0 < t.size ∧ (slotAt t j0).is_alive = false := by
    obtain ⟨j0, hj0, hj0p⟩ := exists_false_getD_of_countP_lt t.table _ emptyEntry hca
    exact ⟨j0, hlen ▸ hj0, hj0p⟩
  obtain ⟨j0, hj0, hj0dead⟩ := hdead
  obtain ⟨d, hd, hfs, hstop, hmin⟩ := find_slot_total hash hlen hs
    ⟨j0, hj0, probeContinues_of_not_alive hj0dead⟩
  have hstart : hash k % t.size < t.size := Nat.mod_lt _ hs
  have hilt : (hash k % t.size + d) % t.size < t.size := Nat.mod_lt _ hs
  refine ⟨(hash k % t.size + d) % t.size, hfs, hilt, ?_⟩
  cases halive : (slotAt t ((hash k % t.size + d) % t.size)).is_alive with
  | true =>
    refine Or.inr ⟨rfl, ?_⟩
    by_contra hk
    have := probeContinues_noTomb (k := k)
      (hnt _ (slotAt_mem (show (hash k % t.size + d) % t.size < t.table.length by
        rw [hlen]; exact hilt)))
    rw [hstop, halive] at this
    simp at this
    rw [Nat.mod_add_mod] at hk
    exact hk this
  | false =>
    refine Or.inl ⟨rfl, ?_⟩
    rintro ⟨j, hj, haj, hkj⟩
    have hdj := probeDist_lt hs (hash k % t.size) j
    have hjdist : (hash k % t.size + probeDist t.size (hash k % t.size) j) % t.size = j :=
      add_probeDist hstart hj
    rcases Nat.lt_trichotomy (probeDist t.size (hash k % t.size) j) d with hlt | heq | hgt
    · have := hmin _ hlt
      rw [hjdist] at this
      rw [probeContinues_noTomb (hnt _ (slotAt_mem (hlen ▸ hj))), haj, hkj] at this
      simp at this
    · rw [← heq, hjdist] at halive
      rw [halive] at haj
      exact absurd haj (by simp)
    · have := walk_clear_to_key ⟨hlen, hs, hnt, huk, hch⟩ hj haj hkj d hgt
      rw [hstop] at this
      exact absurd this (by simp)

end HashTable

namespace HashTable

variable {K V : Type} [DecidableEq K] [Inhabited K] [Inhabited V]

theorem countP_set_flip {α : Type} (l : List α) (i : Nat) (e e' : α) (p : α → Bool)
    (hget : l.get? i = some e) (hpe : p e = false) (hpe' : p e' = true) :
    (l.set i e').countP p = l.countP p + 1 := by
  induction l generalizing i with
  | nil => simp at hget
  | cons a l ih =>
    cases i with
    | zero =>
      obtain rfl : a = e := by simpa using hget
      simp [List.set, List.countP_cons, hpe, hpe']
    | succ j =>
      simp only [List.set, List.countP_cons]
      rw [ih j (by simpa using hget)]
      omega

theorem slotAt_writeAt_self {t : HashTable K V} {i : Nat} (k : K) (v : V)
    (h : i < t.table.length) : slotAt (writeAt t i k v) i = liveEntry k v := by
  show (t.table.set i (liveEntry k v)).getD i emptyEntry = liveEntry k v
  exact getD_set_self t.table i _ _ h

theorem slotAt_writeAt_ne {t : HashTable K V} {i j : Nat} (k : K) (v : V)
    (h : j ≠ i) : slotAt (writeAt t i k v) j = slotAt t j := by
  show (t.table.set i (liveEntry k v)).getD j emptyEntry = t.table.getD j emptyEntry
  exact getD_set_other t.table i j _ _ h

/-- The write step of a delete-free `put`: probing finds either a dead
slot (when `k` is not stored) or the unique live slot holding `k`, and
writing `(k, v, live, used)` there preserves the structural invariant,
stores exactly the pair `(k, v)`, keeps every other pair, and raises the
live count precisely when `k` was absent. -/
theorem insert_pcore {hash : K → Nat} {t : HashTable K V} (hP : PCore hash t)
    (hca : countAlive t.table < t.table.length) (k : K) (v : V) :
    ∃ i, find_slot hash t k = some i ∧ i < t.size ∧
      PCore hash (writeAt t i k v) ∧
      (∀ k₀ v₀, MapsTo (writeAt t i k v) k₀ v₀ ↔
        ((k₀ = k ∧ v₀ = v) ∨ (k₀ ≠ k ∧ MapsTo t k₀ v₀))) ∧
      (AliveKey t k → countAlive (writeAt t i k v).table = countAlive t.table) ∧
      (¬ AliveKey t k → countAlive (writeAt t i k v).table = countAlive t.table + 1) := by
  obtain ⟨i, hfs, hilt, hcase⟩ := find_slot_dichotomy hP hca k
  obtain ⟨hlen, hs, hnt, huk, hch⟩ := hP
  have hillen : i < t.table.length := by rw [hlen]; exact hilt
  have hgeti : t.table.get? i = some (slotAt t i) := get?_slotAt hillen
  have hlen1 : (writeAt t i k v).table.length = (writeAt t i k v).size := by
    rw [writeAt_length, writeAt_size]; exact hlen
  have hsize1 : (writeAt t i k v).size = t.size := writeAt_size t i k v
  have hnt1 : NoTomb (writeAt t i k v) := by
    intro e he
    rcases List.mem_or_eq_of_mem_set he with h1 | rfl
    · exact hnt e h1
    · rfl
  have hslot1 : ∀ j, j < t.size →
      slotAt (writeAt t i k v) j = if j = i then liveEntry k v else slotAt t j := by
    intro j hj
    by_cases hji : j = i
    · rw [if_pos hji, hji]
      exact slotAt_writeAt_self k v hillen
    · rw [if_neg hji]
      exact slotAt_writeAt_ne k v hji
  have hmaps_new : MapsTo (writeAt t i k v) k v := by
    refine ⟨i, by rw [hsize1]; exact hilt, ?_⟩
    exact slotAt_writeAt_self k v hillen
  -- uniqueness and chains, by the two cases of the dichotomy
  have hkeyfact : ∀ j, j < t.size → j ≠ i → (slotAt t j).is_alive = true →
      (slotAt t j).key = k → False := by
    intro j hj hji haj hkj
    rcases hcase with ⟨hdead, hnkey⟩ | ⟨halive, hkey⟩
    · exact hnkey ⟨j, hj, haj, hkj⟩
    · exact hji (huk j i hj hilt haj halive (by rw [hkj, hkey]))
  have huk1 : UniqueKeys (writeAt t i k v) := by
    intro i₁ j₁ hi₁ hj₁ ha₁ ha₂ hk₁₂
    rw [hsize1] at hi₁ hj₁
    rw [hslot1 i₁ hi₁] at ha₁ hk₁₂
    rw [hslot1 j₁ hj₁] at ha₂ hk₁₂
    by_cases h1 : i₁ = i <;> by_cases h2 : j₁ = i
    · rw [h1, h2]
    · rw [if_pos h1] at hk₁₂
      rw [if_neg h2] at ha₂ hk₁₂
      exact (hkeyfact j₁ hj₁ h2 ha₂ hk₁₂.symm).elim
    · rw [if_neg h1] at ha₁ hk₁₂
      rw [if_pos h2] at hk₁₂
      exact (hkeyfact i₁ hi₁ h1 ha₁ hk₁₂).elim
    · rw [if_neg h1] at ha₁ hk₁₂
      rw [if_neg h2] at ha₂ hk₁₂
      exact huk i₁ j₁ hi₁ hj₁ ha₁ ha₂ hk₁₂
  have hch1 : Chains hash (writeAt t i k v) := by
    intro i₁ hi₁ ha₁ d hd
    rw [hsize1] at hi₁ hd ⊢
    rw [hslot1 i₁ hi₁] at ha₁ hd ⊢
    by_cases h1 : i₁ = i
    · -- the written slot: its walk is exactly the probe that found `i`
      rw [if_pos h1] at hd ⊢
      subst h1
      obtain ⟨d₀, hd₀, hi₀, hstop₀, hmin₀⟩ := find_slot_sound hlen hfs
      have hstart : hash k % t.size < t.size := Nat.mod_lt _ hs
      have hdist : probeDist t.size (hash (liveEntry k v : HashTableEntry K V).key % t.size) i₁ = d₀ := by
        show probeDist t.size (hash k % t.size) i₁ = d₀
        rw [hi₀, probeDist_add hstart hd₀]
      rw [hdist] at hd
      have hp : (hash (liveEntry k v : HashTableEntry K V).key % t.size + d) % t.size
          = (hash k % t.size + d) % t.size := rfl
      rw [hp]
      have hpi : (hash k % t.size + d) % t.size ≠ i₁ := by
        intro heq
        rw [hi₀] at heq
        have := probe_index_inj hstart (by omega : d < t.size) hd₀ heq
        omega
      rw [hslot1 _ (Nat.mod_lt _ hs), if_neg hpi]
      have hcont := hmin₀ d hd
      have hm := probeContinues_noTomb (k := k)
        (hnt _ (slotAt_mem (show (hash k % t.size + d) % t.size < t.table.length by
          rw [hlen]; exact Nat.mod_lt _ hs)))
      rw [hm] at hcont
      cases hal : (slotAt t ((hash k % t.size + d) % t.size)).is_alive
      · rw [hal] at hcont
        simp at hcont
      · rfl
    · -- an old live slot: its chain slots were live and stay live
      rw [if_neg h1] at ha₁ hd ⊢
      have hpath := hch i₁ hi₁ ha₁ d hd
      set p := (hash (slotAt t i₁).key % t.size + d) % t.size with hp
      have hplt : p < t.size := Nat.mod_lt _ hs
      rw [hslot1 p hplt]
      by_cases hpi : p = i
      · rw [if_pos hpi]
        rfl
      · rw [if_neg hpi]
        exact hpath
  have hcore1 : PCore hash (writeAt t i k v) :=
    ⟨hlen1, by rw [hsize1]; exact hs, hnt1, huk1, hch1⟩
  have hiff : ∀ k₀ v₀, MapsTo (writeAt t i k v) k₀ v₀ ↔
      ((k₀ = k ∧ v₀ = v) ∨ (k₀ ≠ k ∧ MapsTo t k₀ v₀)) := by
    intro k₀ v₀
    constructor
    · rintro ⟨j, hj, hslotj⟩
      rw [hsize1] at hj
      rw [hslot1 j hj] at hslotj
      by_cases hji : j = i
      · rw [if_pos hji] at hslotj
        have h1 : k₀ = k := (congrArg HashTableEntry.key hslotj).symm
        have h2 : v₀ = v := (congrArg HashTableEntry.value hslotj).symm
        exact Or.inl ⟨h1, h2⟩
      · rw [if_neg hji] at hslotj
        have hk₀ : k₀ ≠ k := by
          intro hkk
          exact hkeyfact j hj hji (by rw [hslotj]; rfl) (by rw [hslotj, hkk]; rfl)
        exact Or.inr ⟨hk₀, ⟨j, hj, hslotj⟩⟩
    · rintro (⟨rfl, rfl⟩ | ⟨hne, j, hj, hslotj⟩)
      · exact hmaps_new
      · refine ⟨j, by rw [hsize1]; exact hj, ?_⟩
        have hji : j ≠ i := by
          intro hji
          rcases hcase with ⟨hdead, _⟩ | ⟨_, hkey⟩
          · rw [← hji] at hdead
            rw [hslotj] at hdead
            exact absurd hdead (by simp [liveEntry])
          · rw [hji] at hslotj
            rw [hslotj] at hkey
            exact hne hkey
        rw [hslot1 j hj, if_neg hji]
        exact hslotj
  refine ⟨i, hfs, hilt, hcore1, hiff, ?_, ?_⟩
  · intro hak
    rcases hcase with ⟨hdead, hnkey⟩ | ⟨halive, hkey⟩
    · exact absurd hak hnkey
    · exact countP_set_same t.table i _ _ _ hgeti (by rw [halive])
  · intro hnak
    rcases hcase with ⟨hdead, hnkey⟩ | ⟨halive, hkey⟩
    · exact countP_set_flip t.table i _ _ _ hgeti hdead rfl
    · exact absurd ⟨i, hilt, halive, hkey⟩ hnak

end HashTable

namespace HashTable

variable {K V : Type} [DecidableEq K] [Inhabited K] [Inhabited V]

theorem slotAt_eq_get {t : HashTable K V} {n : Nat} (h : n < t.table.length) :
    slotAt t n = t.table.get ⟨n, h⟩ := by
  have h1 := get?_slotAt (t := t) h
  have h2 := List.get?_eq_get (l := t.table) h
  rw [h1] at h2
  exact Option.some.inj h2

theorem mapsTo_iff_mem {t : HashTable K V} (hlen : t.table.length = t.size)
    (k : K) (v : V) : MapsTo t k v ↔ liveEntry k v ∈ t.table := by
  constructor
  · rintro ⟨i, hi, hs⟩
    rw [← hs]
    exact slotAt_mem (by rw [hlen]; exact hi)
  · intro hmem
    obtain ⟨n, hget⟩ := List.mem_iff_get?.mp hmem
    have hn : n < t.table.length := by
      by_contra hge
      rw [List.get?_eq_none.mpr (by omega)] at hget
      exact absurd hget (by simp)
    refine ⟨n, by rw [← hlen]; exact hn, ?_⟩
    have := get?_slotAt (t := t) hn
    rw [hget] at this
    exact (Option.some.inj this).symm

theorem aliveKey_iff_mapsTo {t : HashTable K V} (hnt : NoTomb t)
    (hlen : t.table.length = t.size) (k : K) :
    AliveKey t k ↔ ∃ v, MapsTo t k v := by
  constructor
  · rintro ⟨j, hj, haj, hkj⟩
    have hused : (slotAt t j).has_been_used = true := by
      rw [hnt _ (slotAt_mem (by rw [hlen]; exact hj))]
      exact haj
    refine ⟨(slotAt t j).value, j, hj, ?_⟩
    have he : slotAt t j =
        { key := (slotAt t j).key, value := (slotAt t j).value,
          is_alive := (slotAt t j).is_alive,
          has_been_used := (slotAt t j).has_been_used } := rfl
    rw [he, haj, hkj, hused]
    rfl
  · rintro ⟨v, j, hj, hs⟩
    exact ⟨j, hj, by rw [hs]; rfl, by rw [hs]; rfl⟩

/-- The live entries of a table with unique keys have pairwise distinct
keys, as a pairwise property of the slot list. -/
theorem uniqueKeys_pairwise {t : HashTable K V} (hlen : t.table.length = t.size)
    (huk : UniqueKeys t) :
    List.Pairwise
      (fun a b : HashTableEntry K V =>
        a.is_alive = true → b.is_alive = true → a.key ≠ b.key) t.table := by
  rw [List.pairwise_iff_get]
  intro i j hij ha hb hk
  have hi : (i : Nat) < t.size := by rw [← hlen]; exact i.isLt
  have hj : (j : Nat) < t.size := by rw [← hlen]; exact j.isLt
  have hsi : slotAt t i = t.table.get i := slotAt_eq_get i.isLt
  have hsj : slotAt t j = t.table.get j := slotAt_eq_get j.isLt
  have heq : (i : Nat) = (j : Nat) := by
    refine huk i j hi hj ?_ ?_ ?_
    · rw [hsi]; exact ha
    · rw [hsj]; exact hb
    · rw [hsi, hsj]; exact hk
  omega

/-- The re-insertion loop on a delete-free accumulator: when the incoming
live entries have fresh, pairwise-distinct keys and fit strictly below
the threshold, the loop succeeds with any budget, never triggers a
resize, preserves the structural invariant, raises the live count and
occupancy in lockstep, and ends holding exactly the old pairs plus the
accumulator's pairs. -/
theorem reinsert_pcore (hash : K → Nat) :
    ∀ (l : List (HashTableEntry K V)) (acc : HashTable K V),
      PCore hash acc →
      countAlive acc.table = acc.current_size →
      acc.current_size + countAlive l < acc.size / 2 →
      (∀ e ∈ l, e.is_alive = true → ¬ AliveKey acc e.key) →
      List.Pairwise
        (fun a b : HashTableEntry K V =>
          a.is_alive = true → b.is_alive = true → a.key ≠ b.key) l →
      (∀ e ∈ l, e.is_alive = true → e.has_been_used = true) →
      ∃ t2, (∀ f, reinsert (put_fueled hash f) acc l = some t2) ∧
        PCore hash t2 ∧ t2.size = acc.size ∧
        countAlive t2.table = t2.current_size ∧
        t2.current_size = acc.current_size + countAlive l ∧
        (∀ k₀ v₀, MapsTo t2 k₀ v₀ ↔ (MapsTo acc k₀ v₀ ∨ liveEntry k₀ v₀ ∈ l))
  | [], acc, hP, hcnt, hbound, _, _, _ =>
    ⟨acc, fun _ => rfl, hP, rfl, hcnt, by simp [countAlive], by
      intro k₀ v₀
      simp⟩
  | e :: rest, acc, hP, hcnt, hbound, hdisj, hpair, haiu => by
    by_cases hal : e.is_alive = true
    · have hca : countAlive (e :: rest) = countAlive rest + 1 := by
        simp [countAlive, List.countP_cons, hal]
      rw [hca] at hbound
      have he : e = liveEntry e.key e.value := by
        have hu := haiu e (List.mem_cons_self _ _) hal
        cases e
        simp only at hal hu
        rw [liveEntry, hal, hu]
      have hcalt : countAlive acc.table < acc.table.length := by
        have h1 : acc.size / 2 ≤ acc.size := Nat.div_le_self _ _
        have h2 := hP.1
        omega
      obtain ⟨i, hfs, hilt, hPw, hiffw, hcnt_same, hcnt_succ⟩ :=
        insert_pcore hP hcalt e.key e.value
      have hfresh : ¬ AliveKey acc e.key := hdisj e (List.mem_cons_self _ _) hal
      have hnt : acc.current_size + 1 < acc.size / 2 := by omega
      have hput := put_fueled_of_no_trigger hash e.value hfs hnt
      have hcnts : countAlive (writeAt acc i e.key e.value).table
          = (writeAt acc i e.key e.value).current_size := by
        rw [hcnt_succ hfresh, writeAt_current_size, hcnt]
      have hAKw : ∀ k₀, AliveKey (writeAt acc i e.key e.value) k₀ ↔
          (k₀ = e.key ∨ AliveKey acc k₀) := by
        intro k₀
        rw [aliveKey_iff_mapsTo hPw.2.2.1 hPw.1,
          aliveKey_iff_mapsTo hP.2.2.1 hP.1]
        constructor
        · rintro ⟨v₀, hm⟩
          rcases (hiffw k₀ v₀).mp hm with ⟨hk, _⟩ | ⟨_, hm'⟩
          · exact Or.inl hk
          · exact Or.inr ⟨v₀, hm'⟩
        · rintro (rfl | ⟨v₀, hm⟩)
          · exact ⟨e.value, (hiffw _ _).mpr (Or.inl ⟨rfl, rfl⟩)⟩
          · by_cases hk : k₀ = e.key
            · exact ⟨e.value, (hiffw _ _).mpr (Or.inl ⟨hk, rfl⟩)⟩
            · exact ⟨v₀, (hiffw _ _).mpr (Or.inr ⟨hk, hm⟩)⟩
      obtain ⟨t2, hrun, hP2, hsz2, hcnt2, hcs2, hiff2⟩ :=
        reinsert_pcore hash rest (writeAt acc i e.key e.value)
          hPw hcnts
          (by rw [writeAt_current_size, writeAt_size]; omega)
          (by
            intro e' he' hale'
            rw [hAKw e'.key]
            rintro (hk | hak)
            · exact (List.rel_of_pairwise_cons hpair he') hal hale' hk.symm
            · exact hdisj e' (List.mem_cons_of_mem _ he') hale' hak)
          hpair.of_cons
          (fun e' he' => haiu e' (List.mem_cons_of_mem _ he'))
      refine ⟨t2, ?_, hP2, by rw [hsz2, writeAt_size], hcnt2, ?_, ?_⟩
      · intro f
        rw [reinsert_cons_alive _ _ _ hal, hput f]
        exact hrun f
      · rw [hcs2, writeAt_current_size, hca]
        omega
      · intro k₀ v₀
        rw [hiff2 k₀ v₀]
        constructor
        · rintro (hm | hmem)
          · rcases (hiffw k₀ v₀).mp hm with ⟨rfl, rfl⟩ | ⟨_, hm'⟩
            · exact Or.inr (by rw [← he]; exact List.mem_cons_self _ _)
            · exact Or.inl hm'
          · exact Or.inr (List.mem_cons_of_mem _ hmem)
        · rintro (hm | hmem)
          · refine Or.inl ((hiffw k₀ v₀).mpr (Or.inr ⟨?_, hm⟩))
            intro hk
            refine hfresh ?_
            rw [aliveKey_iff_mapsTo hP.2.2.1 hP.1]
            exact ⟨v₀, by rw [← hk]; exact hm⟩
          · rcases List.mem_cons.mp hmem with heq | hmem'
            · rw [he] at heq
              simp only [liveEntry, HashTableEntry.mk.injEq] at heq
              exact Or.inl ((hiffw k₀ v₀).mpr (Or.inl ⟨heq.1, heq.2.1⟩))
            · exact Or.inr hmem'
    · have hal' : e.is_alive = false := by
        cases hb : e.is_alive
        · rfl
        · exact absurd hb hal
      have hca : countAlive (e :: rest) = countAlive rest := by
        simp [countAlive, List.countP_cons, hal']
      rw [hca] at hbound
      obtain ⟨t2, hrun, hP2, hsz2, hcnt2, hcs2, hiff2⟩ :=
        reinsert_pcore hash rest acc hP hcnt hbound
          (fun e' he' => hdisj e' (List.mem_cons_of_mem _ he'))
          hpair.of_cons
          (fun e' he' => haiu e' (List.mem_cons_of_mem _ he'))
      refine ⟨t2, ?_, hP2, hsz2, hcnt2, by rw [hcs2, hca], ?_⟩
      · intro f
        rw [reinsert_cons_dead _ _ _ hal']
        exact hrun f
      · intro k₀ v₀
        rw [hiff2 k₀ v₀]
        constructor
        · rintro (hm | hmem)
          · exact Or.inl hm
          · exact Or.inr (List.mem_cons_of_mem _ hmem)
        · rintro (hm | hmem)
          · exact Or.inl hm
          · rcases List.mem_cons.mp hmem with heq | hmem'
            · rw [← heq] at hal'
              exact absurd hal' (by simp [liveEntry])
            · exact Or.inr hmem'

end HashTable

namespace HashTable

variable {K V : Type} [DecidableEq K] [Inhabited K] [Inhabited V]

theorem pcore_new (hash : K → Nat) (n : Nat) (hn : 0 < n) :
    PCore hash (new n : HashTable K V) := by
  refine ⟨by simp [new], hn, ?_, ?_, ?_⟩
  · intro e he
    rw [List.eq_of_mem_replicate he]
    rfl
  · intro i j hi hj ha _ _
    have hE : slotAt (new n : HashTable K V) i = emptyEntry :=
      getD_replicate_self emptyEntry n i
    rw [hE] at ha
    exact absurd ha (by simp [emptyEntry])
  · intro i hi ha d hd
    have hE : slotAt (new n : HashTable K V) i = emptyEntry :=
      getD_replicate_self emptyEntry n i
    rw [hE] at ha
    exact absurd ha (by simp [emptyEntry])

/-- `resize` of a delete-free table with unique keys: succeeds with any
budget, doubles the capacity, sets occupancy to the number of live
entries (with which the live count now coincides), and holds exactly the
pairs of the old table. -/
theorem resize_pcore (hash : K → Nat) {t1 : HashTable K V}
    (hlen : t1.table.length = t1.size) (hs : 0 < t1.size)
    (hnt : NoTomb t1) (huk : UniqueKeys t1)
    (hca : countAlive t1.table ≤ t1.size / 2) :
    ∃ t', (∀ f, resize (put_fueled hash f) t1 = some t') ∧
      PCore hash t' ∧ t'.size = t1.size * 2 ∧
      countAlive t'.table = t'.current_size ∧
      t'.current_size = countAlive t1.table ∧
      (∀ k₀ v₀, MapsTo t' k₀ v₀ ↔ MapsTo t1 k₀ v₀) := by
  have hP0 : PCore hash (new (t1.size * 2) : HashTable K V) :=
    pcore_new hash _ (by omega)
  have hcnt0 : countAlive (new (t1.size * 2) : HashTable K V).table = 0 :=
    countP_replicate_false _ _ _ (by simp [emptyEntry])
  have hdiv : t1.size * 2 / 2 = t1.size := Nat.mul_div_cancel _ (by omega)
  have hbound : (new (t1.size * 2) : HashTable K V).current_size + countAlive t1.table
      < (new (t1.size * 2) : HashTable K V).size / 2 := by
    show (0 : Nat) + countAlive t1.table < t1.size * 2 / 2
    rw [hdiv]
    have h1 : t1.size / 2 < t1.size := Nat.div_lt_self hs (by omega)
    omega
  have hdisj : ∀ e ∈ t1.table, e.is_alive = true →
      ¬ AliveKey (new (t1.size * 2) : HashTable K V) e.key := by
    rintro e he hal ⟨j, hj, haj, _⟩
    have hE : slotAt (new (t1.size * 2) : HashTable K V) j = emptyEntry :=
      getD_replicate_self emptyEntry _ j
    rw [hE] at haj
    exact absurd haj (by simp [emptyEntry])
  have hpair := uniqueKeys_pairwise hlen huk
  have haiu : ∀ e ∈ t1.table, e.is_alive = true → e.has_been_used = true :=
    fun e he hal => by rw [hnt e he]; exact hal
  obtain ⟨t2, hrun, hP2, hsz2, hcnt2, hcs2, hiff2⟩ :=
    reinsert_pcore hash t1.table (new (t1.size * 2)) hP0 hcnt0 hbound hdisj hpair haiu
  refine ⟨{ t2 with current_size := countAlive t1.table }, ?_, hP2, ?_, ?_, rfl, ?_⟩
  · intro f
    rw [resize_eq]
    show (match reinsert (put_fueled hash f) (new (t1.size * 2) : HashTable K V) t1.table with
          | none => none
          | some t3 => some { t3 with current_size := countAlive t1.table }) =
      some { t2 with current_size := countAlive t1.table }
    rw [hrun f]
  · show t2.size = t1.size * 2
    rw [hsz2]
    rfl
  · show countAlive t2.table = countAlive t1.table
    rw [hcnt2, hcs2]
    show (0 : Nat) + countAlive t1.table = countAlive t1.table
    omega
  · intro k₀ v₀
    show MapsTo t2 k₀ v₀ ↔ MapsTo t1 k₀ v₀
    rw [hiff2 k₀ v₀]
    constructor
    · rintro (⟨j, hj, hsj⟩ | hmem)
      · have hE : slotAt (new (t1.size * 2) : HashTable K V) j = emptyEntry :=
          getD_replicate_self emptyEntry _ j
        rw [hE] at hsj
        have := congrArg HashTableEntry.is_alive hsj
        exact absurd this (by simp [emptyEntry, liveEntry])
      · exact (mapsTo_iff_mem hlen k₀ v₀).mpr hmem
    · intro hm
      exact Or.inr ((mapsTo_iff_mem hlen k₀ v₀).mp hm)


/-- A delete-free `put` on a `PState` table: succeeds with any positive
budget, preserves the invariant, never shrinks the capacity, afterwards
stores exactly the pair `(k, v)` together with the pairs of other keys,
and — when the live count was exact and the key fresh — advances the
occupancy by one, in lockstep with the live count, doubling the capacity
exactly when the incremented occupancy meets the threshold. -/
theorem put_pcore (hash : K → Nat) {t : HashTable K V} (hPS : PState hash t)
    (k : K) (v : V) :
    ∃ t', (∀ f, put_fueled hash (f + 1) t k v = some t') ∧ PState hash t' ∧
      t.size ≤ t'.size ∧
      (∀ k₀ v₀, MapsTo t' k₀ v₀ ↔
        ((k₀ = k ∧ v₀ = v) ∨ (k₀ ≠ k ∧ MapsTo t k₀ v₀))) ∧
      (countAlive t.table = t.current_size → ¬ AliveKey t k →
        countAlive t'.table = t'.current_size ∧
        t'.current_size = t.current_size + 1 ∧
        ((t.size / 2 ≤ t.current_size + 1 ∧ t'.size = t.size * 2) ∨
         (t.current_size + 1 < t.size / 2 ∧ t'.size = t.size))) := by
  obtain ⟨hP, hcab, hcs⟩ := hPS
  have hlen := hP.1
  have hs := hP.2.1
  have hcalt : countAlive t.table < t.table.length := by
    have h1 : t.size / 2 ≤ t.size := Nat.div_le_self _ _
    omega
  obtain ⟨i, hfs, hilt, hPw, hiffw, hcnt_same, hcnt_succ⟩ := insert_pcore hP hcalt k v
  by_cases htr : t.current_size + 1 < t.size / 2
  · refine ⟨writeAt t i k v, fun f => put_fueled_of_no_trigger hash v hfs htr (f + 1),
      ⟨hPw, ?_, ?_⟩, le_of_eq (writeAt_size t i k v).symm, hiffw, ?_⟩
    · have h1 := writeAt_countAlive_le t i k v
      rw [writeAt_current_size]
      omega
    · rw [writeAt_current_size, writeAt_size]
      exact htr
    · intro hexact hfresh
      refine ⟨?_, writeAt_current_size t i k v, Or.inr ⟨htr, writeAt_size t i k v⟩⟩
      rw [hcnt_succ hfresh, writeAt_current_size, hexact]
  · have ht2 : t.size / 2 ≤ t.current_size + 1 := by omega
    have hcaw : countAlive (writeAt t i k v).table ≤ (writeAt t i k v).size / 2 := by
      have h1 := writeAt_countAlive_le t i k v
      rw [writeAt_size]
      omega
    obtain ⟨t', hrun, hP', hsz', hcnt', hcs', hiff'⟩ :=
      resize_pcore hash hPw.1 (by rw [writeAt_size]; exact hs)
        hPw.2.2.1 hPw.2.2.2.1 hcaw
    have hwsz : (writeAt t i k v).size = t.size := writeAt_size t i k v
    refine ⟨t', fun f => ?_, ⟨hP', le_of_eq hcnt', ?_⟩, ?_, ?_, ?_⟩
    · rw [put_fueled_of_trigger hash v hfs ht2 f]
      exact hrun f
    · rw [hcs', hsz', hwsz]
      have h1 := writeAt_countAlive_le t i k v
      have h2 : t.size * 2 / 2 = t.size := Nat.mul_div_cancel _ (by omega)
      have h3 : t.size / 2 < t.size := Nat.div_lt_self hs (by omega)
      omega
    · rw [hsz', hwsz]
      omega
    · intro k₀ v₀
      rw [hiff' k₀ v₀]
      exact hiffw k₀ v₀
    · intro hexact hfresh
      refine ⟨le_antisymm (le_of_eq hcnt') (le_of_eq hcnt'.symm), ?_,
        Or.inl ⟨ht2, by rw [hsz', hwsz]⟩⟩
      rw [hcs', hcnt_succ hfresh, hexact]

end HashTable

namespace HashTable

variable {K V : Type} [DecidableEq K] [Inhabited K] [Inhabited V]

theorem probeDist_self (s h : Nat) : probeDist s h h = 0 := by
  unfold probeDist
  have h1 : h + s - h = s := by omega
  rw [h1, Nat.mod_self]

/-- The state reached by one `put` from the capacity-1 table satisfies
the delete-free invariant and stores exactly the inserted pair. -/
theorem new_one_pstate (hash : K → Nat) (k : K) (v : V) :
    PState hash
      ({ size := 4,
         table := (List.replicate 4 (emptyEntry : HashTableEntry K V)).set (hash k % 4)
           (liveEntry k v),
         current_size := 1 } : HashTable K V) ∧
    MapsTo
      ({ size := 4,
         table := (List.replicate 4 (emptyEntry : HashTableEntry K V)).set (hash k % 4)
           (liveEntry k v),
         current_size := 1 } : HashTable K V) k v ∧
    (∀ k₀ v₀, MapsTo
      ({ size := 4,
         table := (List.replicate 4 (emptyEntry : HashTableEntry K V)).set (hash k % 4)
           (liveEntry k v),
         current_size := 1 } : HashTable K V) k₀ v₀ → k₀ = k ∧ v₀ = v) := by
  have hi4 : hash k % 4 < 4 := Nat.mod_lt _ (by omega)
  have hlen4 : (List.replicate 4 (emptyEntry : HashTableEntry K V)).length = 4 := by simp
  have hslot : ∀ j, slotAt
      ({ size := 4,
         table := (List.replicate 4 (emptyEntry : HashTableEntry K V)).set (hash k % 4)
           (liveEntry k v),
         current_size := 1 } : HashTable K V) j =
      if j = hash k % 4 then liveEntry k v else emptyEntry := by
    intro j
    by_cases hj : j = hash k % 4
    · rw [if_pos hj, hj]
      show ((List.replicate 4 (emptyEntry : HashTableEntry K V)).set (hash k % 4)
        (liveEntry k v)).getD (hash k % 4) emptyEntry = liveEntry k v
      exact getD_set_self _ _ _ _ (by rw [hlen4]; exact hi4)
    · rw [if_neg hj]
      show ((List.replicate 4 (emptyEntry : HashTableEntry K V)).set (hash k % 4)
        (liveEntry k v)).getD j emptyEntry = emptyEntry
      rw [getD_set_other _ _ _ _ _ hj]
      exact getD_replicate_self _ _ _
  have hcore : PCore hash
      ({ size := 4,
         table := (List.replicate 4 (emptyEntry : HashTableEntry K V)).set (hash k % 4)
           (liveEntry k v),
         current_size := 1 } : HashTable K V) := by
    refine ⟨by simp, by show (0 : Nat) < 4; omega, ?_, ?_, ?_⟩
    · intro e he
      rcases List.mem_or_eq_of_mem_set he with h1 | rfl
      · rw [List.eq_of_mem_replicate h1]
        rfl
      · rfl
    · intro i j hi hj ha hb _
      rw [hslot i] at ha
      rw [hslot j] at hb
      by_cases h1 : i = hash k % 4 <;> by_cases h2 : j = hash k % 4
      · rw [h1, h2]
      · rw [if_neg h2] at hb
        exact absurd hb (by simp [emptyEntry])
      · rw [if_neg h1] at ha
        exact absurd ha (by simp [emptyEntry])
      · rw [if_neg h1] at ha
        exact absurd ha (by simp [emptyEntry])
    · intro i hi ha d hd
      rw [hslot i] at ha hd
      by_cases h1 : i = hash k % 4
      · rw [if_pos h1] at hd
        rw [h1] at hd
        have hz : probeDist 4 (hash (liveEntry k v : HashTableEntry K V).key % 4)
            (hash k % 4) = 0 := by
          show probeDist 4 (hash k % 4) (hash k % 4) = 0
          exact probeDist_self 4 (hash k % 4)
        rw [hz] at hd
        omega
      · rw [if_neg h1] at ha
        exact absurd ha (by simp [emptyEntry])
  have hcnt : countAlive ((List.replicate 4 (emptyEntry : HashTableEntry K V)).set
      (hash k % 4) (liveEntry k v)) = 1 := by
    have hget : (List.replicate 4 (emptyEntry : HashTableEntry K V)).get? (hash k % 4)
        = some emptyEntry := by
      rw [get?_eq_some_getD _ _ emptyEntry (by rw [hlen4]; exact hi4),
        getD_replicate_self]
    have h0 : countAlive (List.replicate 4 (emptyEntry : HashTableEntry K V)) = 0 :=
      countP_replicate_false _ _ _ (by simp [emptyEntry])
    have := countP_set_flip (List.replicate 4 (emptyEntry : HashTableEntry K V))
      (hash k % 4) emptyEntry (liveEntry k v) (fun e => e.is_alive) hget
      (by simp [emptyEntry]) (by simp [liveEntry])
    unfold countAlive at h0 ⊢
    omega
  refine ⟨⟨hcore, by rw [hcnt], by show (1 : Nat) < 4 / 2; omega⟩,
    ⟨hash k % 4, hi4, by rw [hslot, if_pos rfl]⟩, ?_⟩
  rintro k₀ v₀ ⟨j, hj, hsj⟩
  rw [hslot j] at hsj
  by_cases h1 : j = hash k % 4
  · rw [if_pos h1] at hsj
    simp only [liveEntry, HashTableEntry.mk.injEq] at hsj
    exact ⟨hsj.1.symm, hsj.2.1.symm⟩
  · rw [if_neg h1] at hsj
    have := congrArg HashTableEntry.is_alive hsj
    exact absurd this (by simp [emptyEntry, liveEntry])

/-- Every delete-free reachable state satisfies the delete-free
invariant, except the untouched capacity-1 table. -/
theorem putReach_pstate {hash : K → Nat} {C : Nat} {t : HashTable K V}
    (h : PutReach hash C t) :
    PState hash t ∨ (C = 1 ∧ t = (new 1 : HashTable K V)) := by
  induction h with
  | init hC =>
    rename_i C
    rcases Nat.lt_or_ge C 2 with h2 | h2
    · exact Or.inr ⟨by omega, by rw [show C = 1 by omega]⟩
    · refine Or.inl ⟨pcore_new hash C (by omega), ?_, ?_⟩
      · have h0 : countAlive ((new C : HashTable K V).table) = 0 :=
          countP_replicate_false _ _ _ (by simp [emptyEntry])
        rw [h0]
        exact Nat.zero_le _
      · show (0 : Nat) < C / 2
        omega
  | @put_step t k v t' hre hput ih =>
    rename_i C
    left
    rcases ih with hPS | ⟨hC1, hnew1⟩
    · obtain ⟨t'', hrun, hPS', _, _, _⟩ := put_pcore hash hPS k v
      have h2 : put hash t k v = some t'' := hrun 1
      rw [hput] at h2
      obtain rfl : t' = t'' := by injection h2
      exact hPS'
    · subst hnew1
      have h2 : put hash (new 1 : HashTable K V) k v =
          some { size := 4,
                 table := (List.replicate 4 (emptyEntry : HashTableEntry K V)).set
                   (hash k % 4) (liveEntry k v),
                 current_size := 1 } := new_one_put hash k v 0
      rw [hput] at h2
      obtain rfl : t' = _ := by injection h2
      exact (new_one_pstate hash k v).1

/-- Claim C4 (counterexample): with a colliding hasher, from
`construct(10)` the sequence `put 0 1; put 1 2; delete 0; put 1 3`
reaches a state whose slots 0 and 1 are both LIVE with the same key 1:
`delete 0` leaves a FORMERLY_LIVE slot at index 0, and the final `put`
stops there and re-inserts key 1 although key 1 is still LIVE at index 1. -/
theorem C4_counterexample :
    ((((put hash0 (new 10 : HashTable Nat Nat) 0 1).bind
        (fun t => put hash0 t 1 2)).bind
        (fun t => delete hash0 t 0)).bind
        (fun t => put hash0 t 1 3)).map
      (fun t => (t.table.get? 0, t.table.get? 1)) =
    some (some { key := 1, value := 3, is_alive := true, has_been_used := true },
          some { key := 1, value := 2, is_alive := true, has_been_used := true }) := by
  decide

/-- Claim C4 (amended): in every table state reachable by a sequence of
`put` calls alone (no deletes) from `construct(C)` with `C >= 1`, no two
LIVE slots hold equal keys.  With deletes the claim fails: a `put` that
stops at a FORMERLY_LIVE slot can duplicate a key that is still LIVE
further along its probe chain. -/
theorem C4_unique_keys_without_delete {hash : K → Nat} {C : Nat}
    {t : HashTable K V} (h : PutReach hash C t) : UniqueKeys t := by
  rcases putReach_pstate h with hPS | ⟨_, rfl⟩
  · exact hPS.1.2.2.2.1
  · intro i j hi hj ha _ _
    have hE : slotAt (new 1 : HashTable K V) i = emptyEntry :=
      getD_replicate_self emptyEntry 1 i
    rw [hE] at ha
    exact absurd ha (by simp [emptyEntry])

theorem C4_witness : UniqueKeys (writeAt (new 10 : HashTable Nat Nat) 0 0 5) :=
  C4_unique_keys_without_delete
    (PutReach.put_step (PutReach.init 10 (by omega))
      (show put hash0 (new 10 : HashTable Nat Nat) 0 5
        = some (writeAt (new 10 : HashTable Nat Nat) 0 0 5) from by decide))


theorem runPuts_preserves {hash : K → Nat} {k : K} {v : V} :
    ∀ (ps : List (K × V)) (t1 t2 : HashTable K V),
      PState hash t1 → MapsTo t1 k v → runPuts hash t1 ps = some t2 →
      (∀ p ∈ ps, p.1 = k → p.2 = v) →
      PState hash t2 ∧ MapsTo t2 k v
  | [], t1, t2, hPS, hm, hrun, _ => by
    obtain rfl : t1 = t2 := by injection hrun
    exact ⟨hPS, hm⟩
  | p :: ps, t1, t2, hPS, hm, hrun, hsafe => by
    obtain ⟨t'', hrunf, hPS'', _, hiff, _⟩ := put_pcore hash hPS p.1 p.2
    have h1 : put hash t1 p.1 p.2 = some t'' := hrunf 1
    rw [runPuts] at hrun
    simp only [h1] at hrun
    have hm'' : MapsTo t'' k v := by
      by_cases hk : p.1 = k
      · exact (hiff k v).mpr
          (Or.inl ⟨hk.symm, (hsafe p (List.mem_cons_self _ _) hk).symm⟩)
      · exact (hiff k v).mpr (Or.inr ⟨fun hkk => hk hkk.symm, hm⟩)
    exact runPuts_preserves ps t'' t2 hPS'' hm'' hrun
      (fun p' hp' => hsafe p' (List.mem_cons_of_mem _ hp'))

/-- Claim C5 (counterexample): with a colliding hasher, from
`construct(10)`: `put 0 5; put 1 7; delete 0; get 1` returns absent even
though key 1 was put with value 7 and never deleted or overwritten — the
delete of the OTHER key 0 left a FORMERLY_LIVE slot on key 1's probe
chain, which stops the lookup walk.  The claim's allowance of arbitrary
intervening deletes of other keys is therefore wrong. -/
theorem C5_counterexample :
    (((put hash0 (new 10 : HashTable Nat Nat) 0 5).bind
        (fun t => put hash0 t 1 7)).bind
        (fun t => delete hash0 t 0)).bind
      (fun t => get hash0 t 1) = none := by decide

/-- Claim C5 (amended): in a delete-free history — from `construct(C)`
with `C >= 1`, any `put` calls, then `put(k, v)`, then any further `put`
calls none of which stores a different value under `k` — `get(k)`
returns `present(v)`; intervening puts of other keys, including those
that trigger resizes, are unrestricted.  (With deletes of other keys
allowed the claim is false.) -/
theorem C5_get_after_put_without_delete {hash : K → Nat} {C : Nat}
    {t t1 t2 : HashTable K V} {k : K} {v : V} {ps : List (K × V)}
    (h : PutReach hash C t)
    (hput : put hash t k v = some t1)
    (hrun : runPuts hash t1 ps = some t2)
    (hsafe : ∀ p ∈ ps, p.1 = k → p.2 = v) :
    get hash t2 k = some v := by
  have hstart : PState hash t1 ∧ MapsTo t1 k v := by
    rcases putReach_pstate h with hPS | ⟨_, rfl⟩
    · obtain ⟨t'', hrunf, hPS'', _, hiff, _⟩ := put_pcore hash hPS k v
      have h1 : put hash t k v = some t'' := hrunf 1
      rw [hput] at h1
      obtain rfl : t1 = t'' := by injection h1
      exact ⟨hPS'', (hiff k v).mpr (Or.inl ⟨rfl, rfl⟩)⟩
    · have h2 : put hash (new 1 : HashTable K V) k v =
          some { size := 4,
                 table := (List.replicate 4 (emptyEntry : HashTableEntry K V)).set
                   (hash k % 4) (liveEntry k v),
                 current_size := 1 } := new_one_put hash k v 0
      rw [hput] at h2
      obtain rfl : t1 = _ := by injection h2
      exact ⟨(new_one_pstate hash k v).1, (new_one_pstate hash k v).2.1⟩
  obtain ⟨hPS2, hm2⟩ := runPuts_preserves ps t1 t2 hstart.1 hstart.2 hrun hsafe
  exact get_mapsTo hPS2.1 hm2

theorem C5_witness :
    get hash0 (writeAt (new 10 : HashTable Nat Nat) 0 0 5) 0 = some 5 :=
  C5_get_after_put_without_delete (PutReach.init 10 (by omega))
    (show put hash0 (new 10 : HashTable Nat Nat) 0 5
      = some (writeAt (new 10 : HashTable Nat Nat) 0 0 5) from by decide)
    (show runPuts hash0 (writeAt (new 10 : HashTable Nat Nat) 0 0 5)
        ([] : List (Nat × Nat))
      = some (writeAt (new 10 : HashTable Nat Nat) 0 0 5) from rfl)
    (by simp)

end HashTable

namespace HashTable

variable {K V : Type} [DecidableEq K] [Inhabited K] [Inhabited V]

/-- Running pairwise-distinct fresh puts from an exact delete-free state:
occupancy counts the puts, and the capacity stays the smallest
power-of-two multiple of the (even) initial capacity strictly above
twice the count. -/
theorem runPuts_distinct (hash : K → Nat) (C : Nat) (hCe : C % 2 = 0) :
    ∀ (ps : List (K × V)) (t t2 : HashTable K V) (N : Nat) (done : List K),
      PState hash t →
      countAlive t.table = t.current_size →
      t.current_size = N →
      (∀ k₀, AliveKey t k₀ → k₀ ∈ done) →
      (∀ k₀ ∈ done, k₀ ∉ ps.map Prod.fst) →
      (ps.map Prod.fst).Nodup →
      2 * N < t.size →
      (∃ j, t.size = C * 2 ^ j) →
      (∀ j', 2 * N < C * 2 ^ j' → t.size ≤ C * 2 ^ j') →
      runPuts hash t ps = some t2 →
      t2.current_size = N + ps.length ∧
      2 * (N + ps.length) < t2.size ∧
      (∃ j, t2.size = C * 2 ^ j) ∧
      (∀ j', 2 * (N + ps.length) < C * 2 ^ j' → t2.size ≤ C * 2 ^ j')
  | [], t, t2, N, done, hPS, hex, hN, hak, hdis, hnd, hgt, hpow, hmin, hrun => by
    obtain rfl : t = t2 := by injection hrun
    simp only [List.length_nil, Nat.add_zero]
    exact ⟨hN, hgt, hpow, hmin⟩
  | (k, v) :: ps, t, t2, N, done, hPS, hex, hN, hak, hdis, hnd, hgt, hpow, hmin, hrun => by
    have hkfresh : ¬ AliveKey t k := by
      intro hk
      have h1 := hak k hk
      have h2 := hdis k h1
      exact h2 (by simp)
    obtain ⟨t'', hrunf, hPS'', _, hiff, hexact⟩ := put_pcore hash hPS k v
    obtain ⟨hcnt'', hcs'', hsz''⟩ := hexact hex hkfresh
    have h1 : put hash t k v = some t'' := hrunf 1
    rw [runPuts] at hrun
    simp only [h1] at hrun
    -- parity of the capacity
    have heven : t.size % 2 = 0 := by
      obtain ⟨j, hj⟩ := hpow
      obtain ⟨c, hc⟩ : ∃ c, C = 2 * c := ⟨C / 2, by omega⟩
      have h2 : t.size = 2 * (c * 2 ^ j) := by rw [hj, hc]; ring
      omega
    have hCpos : 0 < C := by
      obtain ⟨j, hj⟩ := hpow
      have := hPS.1.2.1
      by_contra hc
      rw [show C = 0 by omega] at hj
      simp at hj
      omega
    -- the new size invariants
    have hnew : 2 * (N + 1) < t''.size ∧ (∃ j, t''.size = C * 2 ^ j) ∧
        (∀ j', 2 * (N + 1) < C * 2 ^ j' → t''.size ≤ C * 2 ^ j') := by
      rcases hsz'' with ⟨htrig, hdouble⟩ | ⟨hnotrig, hsame⟩
      · -- resize happened: capacity doubles
        have hle : t.size ≤ 2 * N + 2 := by
          have h2 : t.size / 2 ≤ t.current_size + 1 := htrig
          omega
        have hge : t.size ≥ 2 * N + 2 := by omega
        have hsz : t.size = 2 * N + 2 := by omega
        obtain ⟨j, hj⟩ := hpow
        refine ⟨by omega, ⟨j + 1, by rw [hdouble, hj]; ring⟩, ?_⟩
        intro j' hj'
        have hgtj : C * 2 ^ j < C * 2 ^ j' := by omega
        have hjj' : j < j' := by
          by_contra hge2
          have h3 : 2 ^ j' ≤ 2 ^ j := Nat.pow_le_pow_right (by omega) (by omega)
          have h4 : C * 2 ^ j' ≤ C * 2 ^ j := Nat.mul_le_mul_left C h3
          omega
        have h5 : C * 2 ^ (j + 1) ≤ C * 2 ^ j' :=
          Nat.mul_le_mul_left C (Nat.pow_le_pow_right (by omega) (by omega))
        rw [hdouble, hj]
        have h6 : C * 2 ^ j * 2 = C * 2 ^ (j + 1) := by ring
        omega
      · -- no resize: capacity unchanged, still strictly above the bound
        have hlt : 2 * (N + 1) < t.size := by
          have h2 : t.current_size + 1 < t.size / 2 := hnotrig
          omega
        refine ⟨by rw [hsame]; exact hlt, by rw [hsame]; exact hpow, ?_⟩
        intro j' hj'
        rw [hsame]
        exact hmin j' (by omega)
    have hak'' : ∀ k₀, AliveKey t'' k₀ → k₀ ∈ (k :: done) := by
      intro k₀ hk₀
      rw [aliveKey_iff_mapsTo hPS''.1.2.2.1 hPS''.1.1] at hk₀
      obtain ⟨v₀, hm⟩ := hk₀
      rcases (hiff k₀ v₀).mp hm with ⟨rfl, _⟩ | ⟨_, hm'⟩
      · exact List.mem_cons_self _ _
      · refine List.mem_cons_of_mem _ (hak k₀ ?_)
        rw [aliveKey_iff_mapsTo hPS.1.2.2.1 hPS.1.1]
        exact ⟨v₀, hm'⟩
    have hdis'' : ∀ k₀ ∈ (k :: done), k₀ ∉ ps.map Prod.fst := by
      intro k₀ hk₀
      rcases List.mem_cons.mp hk₀ with rfl | hmem
      · have := hnd
        simp only [List.map_cons, List.nodup_cons] at this
        exact this.1
      · intro hin
        exact hdis k₀ hmem (by simp [hin])
    have hnd'' : (ps.map Prod.fst).Nodup := by
      simp only [List.map_cons, List.nodup_cons] at hnd
      exact hnd.2
    have hres := runPuts_distinct hash C hCe ps t'' t2 (N + 1) (k :: done)
      hPS'' hcnt'' (by rw [hcs'', hN]) hak'' hdis'' hnd''
      hnew.1 hnew.2.1 hnew.2.2 hrun
    simp only [List.length_cons] at hres ⊢
    refine ⟨by rw [hres.1]; omega, by
      have := hres.2.1
      omega, hres.2.2.1, ?_⟩
    intro j' hj'
    exact hres.2.2.2 j' (by omega)

/-- Claim C6 (counterexample): from the odd capacity 3, a single put
(N = 1) triggers a resize to capacity 6 (since 1 >= 3/2 = 1 in integer
division), but 3 = 3 * 2^0 is itself a power-of-two multiple of 3 that
is strictly greater than 2N = 2 and smaller than 6 — the final capacity
is not the smallest such multiple. -/
theorem C6_counterexample :
    ((put hash0 (new 3 : HashTable Nat Nat) 0 0).map (fun t => t.size) = some 6) ∧
    2 * 1 < 3 * 2 ^ 0 ∧ 3 * 2 ^ 0 < 6 := by decide

/-- Claim C6 (amended): for every positive EVEN initial capacity C and
every completed sequence of N puts with pairwise-distinct keys and no
deletes from `construct(C)`, the final capacity is the smallest
power-of-two multiple of C strictly greater than 2N (and the final
occupancy is N).  For odd C >= 3 the formula fails because the integer
division in the trigger `occupancy >= capacity / 2` rounds down. -/
theorem C6_capacity_formula_even {hash : K → Nat} {C : Nat}
    {t2 : HashTable K V} {ps : List (K × V)}
    (hC2 : 2 ≤ C) (hCe : C % 2 = 0)
    (hnodup : (ps.map Prod.fst).Nodup)
    (hrun : runPuts hash (new C) ps = some t2) :
    t2.current_size = ps.length ∧
    2 * ps.length < t2.size ∧
    (∃ j, t2.size = C * 2 ^ j) ∧
    (∀ j', 2 * ps.length < C * 2 ^ j' → t2.size ≤ C * 2 ^ j') := by
  have hPS : PState hash (new C : HashTable K V) := by
    refine ⟨pcore_new hash C (by omega), ?_, ?_⟩
    · have h0 : countAlive ((new C : HashTable K V).table) = 0 :=
        countP_replicate_false _ _ _ (by simp [emptyEntry])
      rw [h0]
      exact Nat.zero_le _
    · show (0 : Nat) < C / 2
      omega
  have h0 : countAlive ((new C : HashTable K V).table) = 0 :=
    countP_replicate_false _ _ _ (by simp [emptyEntry])
  have hres := runPuts_distinct hash C hCe ps (new C) t2 0 []
    hPS h0 rfl
    (by
      rintro k₀ ⟨j, hj, haj, _⟩
      have hE : slotAt (new C : HashTable K V) j = emptyEntry :=
        getD_replicate_self emptyEntry C j
      rw [hE] at haj
      exact absurd haj (by simp [emptyEntry]))
    (by simp)
    hnodup
    (by show 2 * 0 < C; omega)
    ⟨0, by show C = C * 2 ^ 0; ring⟩
    (by
      intro j' hj'
      show C ≤ C * 2 ^ j'
      have h1 : 1 ≤ 2 ^ j' := Nat.one_le_two_pow
      calc C = C * 1 := by ring
      _ ≤ C * 2 ^ j' := Nat.mul_le_mul_left C h1)
    hrun
  simpa using hres

theorem C6_witness :
    2 * 1 < ({ size := 4,
               table := (List.replicate 4 (emptyEntry : HashTableEntry Nat Nat)).set 0
                 (liveEntry 0 5),
               current_size := 1 } : HashTable Nat Nat).size ∧
    ({ size := 4,
       table := (List.replicate 4 (emptyEntry : HashTableEntry Nat Nat)).set 0
         (liveEntry 0 5),
       current_size := 1 } : HashTable Nat Nat).size ≤ 2 * 2 ^ 1 := by
  have h := C6_capacity_formula_even (show (2:Nat) ≤ 2 by omega)
    (show (2:Nat) % 2 = 0 by omega)
    (show (([((0:Nat), (5:Nat))]).map Prod.fst).Nodup by simp)
    (show runPuts hash0 (new 2 : HashTable Nat Nat) [(0, 5)] =
      some { size := 4,
             table := (List.replicate 4 (emptyEntry : HashTableEntry Nat Nat)).set 0
               (liveEntry 0 5),
             current_size := 1 } from by decide)
  exact ⟨h.2.1, h.2.2.2 1 (by decide)⟩

end HashTable
